import Mathlib

/-! Range-limited file loader of `src/tool_paramhlp.c`.

A shallow embedding of `filename_extract_limits`, `memcrlf`, `textmode_fseek`,
`file2string`, `file2memory`, `getnum`, `str2unum` and `str2unummax`, and
theorems about them. `textmode_fseek` is embedded twice: on the byte streams
that `file2string` reads, and on streams in text mode (`TextStream`), where
reading may translate CR LF into one character.

Conventions of the embedding.
* A C string (`char *` up to, not including, its terminating NUL) is a
  `List Char`; reading the byte at offset `i` is `s.getD i '\x00'`, so that the
  offset `strlen s` reads the terminator.
* `curl_off_t` values are `Int`; `size_t` values are `Nat`, with the
  conversion `(size_t)x` written as an explicit reduction modulo `2 ^ 64`.
* The bytes of a stream are `Nat`s.
-/

namespace ToolParamhlp

/-! ## Constants and helpers that live outside `tool_paramhlp.c` -/

/-- Modelled from the spec: the flag `FILELIMIT_START` (declared in
`tool_paramhlp.h`) is the bit of the `START` tag of RangeFlags; `NONE` is `0`
and `BOTH` is `FILELIMIT_START | FILELIMIT_END`. -/
def FILELIMIT_START : Nat := 1

/-- Modelled from the spec: the flag `FILELIMIT_END` (declared in
`tool_paramhlp.h`) is the bit of the `END` tag of RangeFlags. -/
def FILELIMIT_END : Nat := 2

/-- Largest value of the signed 64-bit `curl_off_t`. -/
def CURL_OFF_T_MAX : Nat := 2 ^ 63 - 1

/-- Result codes of `curlx_strtoofft` (the enum `CURLofft`). -/
inductive CURLofft where
  | CURL_OFFT_OK
  | CURL_OFFT_FLOW
  | CURL_OFFT_INVAL
  deriving DecidableEq, Repr

open CURLofft

/-- Value of a string of ASCII decimal digits, most significant digit first. -/
def decVal (ds : List Char) : Nat :=
  ds.foldl (fun acc c => acc * 10 + (c.toNat - 48)) 0

/-- Modelled from the spec: `curlx_strtoofft(str, NULL, 10, num)` (defined in
libcurl, `strtoofft.c`) is the external integer parser of §1 and §4.1. It reads
the leading run of ASCII digits of `str`; an empty run is a malformed digit
span (`CURL_OFFT_INVAL`), a value above the largest `curl_off_t` is a numeric
overflow (`CURL_OFFT_FLOW`, no clamping), otherwise the value is stored in
`*num` and `CURL_OFFT_OK` is returned. The second component is `*num` after the
call; a failed parse leaves it as it was ("RangeSpec unchanged"). -/
def curlx_strtoofft (str : List Char) (num : Int) : CURLofft × Int :=
  let ds := str.takeWhile Char.isDigit
  if ds = [] then (CURL_OFFT_INVAL, num)
  else if decVal ds > CURL_OFF_T_MAX then (CURL_OFFT_FLOW, num)
  else (CURL_OFFT_OK, (decVal ds : Int))

/-- The test `strchr(set, c) != NULL` of libc: `c` occurs in `set`, or `c` is
the NUL byte (which matches the terminator of `set`). -/
def strchr (set : List Char) (c : Char) : Bool :=
  set.elem c || c == '\x00'

/-! ## `filename_extract_limits` -/

/-- What a call of `filename_extract_limits` leaves behind: the returned flags,
`*start`, `*end` and the contents of the `filename` buffer as a C string. -/
structure Limits where
  ret : Nat
  start : Int
  end_ : Int
  filename : List Char
  deriving DecidableEq, Repr

/-- The `while(ptr_range > filename)` loop of `filename_extract_limits`. The
first numeric argument is the offset `ptr_range - filename`; the loop is left
when it is `0`. A `return 0` inside the body is the result with `ret := 0`. -/
def filename_extract_limits_loop (filename : List Char) :
    Nat → Bool → Nat → Int → Int → Limits
  | 0, _, flags_ret, start, end_ => ⟨flags_ret, start, end_, filename⟩
  | i + 1, have_minus, flags_ret, start, end_ =>
    let c := filename.getD (i + 1) '\x00'
    let next := filename.getD (i + 2) '\x00'
    if !strchr "0123456789-!".toList c then
      ⟨0, start, end_, filename⟩
    else
      let have_minus := have_minus || c == '-'
      if c == '!' then
        if next != '-' then
          let flags_ret := flags_ret ||| FILELIMIT_START
          let r := curlx_strtoofft (filename.drop (i + 2)) start
          if r.1 ≠ CURL_OFFT_OK then
            ⟨0, r.2, end_, filename⟩
          else
            ⟨flags_ret, r.2, end_,
              if have_minus && flags_ret != 0 then filename.take (i + 1) else filename⟩
        else
          ⟨flags_ret, start, end_,
            if have_minus && flags_ret != 0 then filename.take (i + 1) else filename⟩
      else if c == '-' && (filename.drop (i + 2)).elem '-' then
        ⟨0, start, end_, filename⟩
      else if c == '-' && next != '\x00' then
        let r := curlx_strtoofft (filename.drop (i + 2)) end_
        if r.1 ≠ CURL_OFFT_OK then
          ⟨0, start, r.2, filename⟩
        else
          filename_extract_limits_loop filename i have_minus FILELIMIT_END start r.2
      else
        filename_extract_limits_loop filename i have_minus flags_ret start end_

/-- The function `filename_extract_limits(filename, start, end)`: `start` and
`end_` are the values held in `*start` and `*end` before the call. The scan
starts at `filename + strlen(filename) - 1`. -/
def filename_extract_limits (filename : List Char) (start end_ : Int) : Limits :=
  filename_extract_limits_loop filename (filename.length - 1) false 0 start end_


/-! ## Streams and the accumulator -/

/-- The values of the enum `ParameterError` (declared in `tool_getparam.h`)
that `tool_paramhlp.c` returns in the functions embedded here. -/
inductive ParameterError where
  | PARAM_OK
  | PARAM_BAD_NUMERIC
  | PARAM_NEGATIVE_NUMERIC
  | PARAM_NO_MEM
  | PARAM_NUMBER_TOO_LARGE
  | PARAM_READ_ERROR
  | PARAM_FSEEK_ERROR
  | PARAM_BLANK_STRING
  deriving DecidableEq, Repr

open ParameterError

/-- A `FILE *` open for reading on a regular file, without text-mode
translation: the bytes of the file, the position of the next read, and the
end-of-file and error indicators. -/
structure FILE where
  data : List Nat
  pos : Nat
  eof : Bool
  err : Bool
  deriving DecidableEq, Repr

/-- The constant `SEEK_SET` of `stdio.h`. -/
def SEEK_SET : Nat := 0

/-- The constant `SEEK_END` of `stdio.h`. -/
def SEEK_END : Nat := 2

/-- The macro `FSEEK(S, O, W)` in its `fseeko` form: the target is `O` from
the start (`SEEK_SET`), from the end (`SEEK_END`) or from the current
position; a negative target fails with `-1`, any other target (also one past
the end) is taken and the end-of-file indicator is cleared. -/
def FSEEK (S : FILE) (O : Int) (W : Nat) : Int × FILE :=
  let target : Int :=
    if W = SEEK_SET then O
    else if W = SEEK_END then (S.data.length : Int) + O
    else (S.pos : Int) + O
  if target < 0 then (-1, S) else (0, { S with pos := target.toNat, eof := false })

/-- The call `ftell(stream)`. -/
def ftell (stream : FILE) : Int := (stream.pos : Int)

/-- The call `fgetc(stream)`: `none` is `EOF`, which sets the end-of-file
indicator. -/
def fgetc (stream : FILE) : Option Nat × FILE :=
  match stream.data.drop stream.pos with
  | [] => (none, { stream with eof := true })
  | b :: _ => (some b, { stream with pos := stream.pos + 1 })

/-- The call `fread(buffer, 1, elt_cnt, file)`: the bytes stored in `buffer`
(their number is the value returned) and the stream afterwards. Fewer bytes
than asked for are delivered only at the end of the file, which sets the
end-of-file indicator. -/
def fread (file : FILE) (elt_cnt : Nat) : List Nat × FILE :=
  let buffer := (file.data.drop file.pos).take elt_cnt
  (buffer, { file with pos := file.pos + buffer.length,
                       eof := file.eof || decide (buffer.length < elt_cnt) })

/-- The call `ferror(file)`. -/
def ferror (file : FILE) : Bool := file.err

/-- The call `feof(file)`. -/
def feof (file : FILE) : Bool := file.eof

/-- Modelled from the spec: `curlx_dyn_addn(&dyn, mem, len)` (defined in
libcurl, `dynbuf.c`) is the append of the growable-buffer primitive of §6: it
appends `mem` to the accumulator, and fails (`none`) when the append would
exceed the maximum capacity `toobig` given to `curlx_dyn_init`. -/
def curlx_dyn_addn (toobig : Nat) (dyn mem : List Nat) : Option (List Nat) :=
  if dyn.length + mem.length > toobig then none else some (dyn ++ mem)

/-! ## `textmode_fseek` -/

/-- The loop `while(pos < newpos && fgetc(stream) != EOF) pos++` of
`textmode_fseek`; the first argument bounds the number of iterations, `none`
is returned when the bound is hit. -/
def textmode_fseek_loop : Nat → FILE → Int → Int → Option (Int × FILE)
  | 0, _, _, _ => none
  | fuel + 1, stream, pos, newpos =>
    if pos < newpos then
      match fgetc stream with
      | (some _, stream) => textmode_fseek_loop fuel stream (pos + 1) newpos
      | (none, stream) => some (pos, stream)
    else some (pos, stream)

/-- The function `textmode_fseek(stream, offset, whence)`: the value returned
and the stream afterwards. The walk reads at most every byte of the file and
then `EOF`, hence the bound given to the loop. -/
def textmode_fseek (stream : FILE) (offset : Int) (whence : Nat) : Option (Int × FILE) :=
  let r1 := if whence = SEEK_END then FSEEK stream 0 SEEK_END else (0, stream)
  if r1.1 ≠ 0 then some (-1, r1.2)
  else
    let stream := r1.2
    let pos := ftell stream
    if pos = -1 then some (-1, stream)
    else
      let r2 := FSEEK stream 0 SEEK_SET
      if r2.1 ≠ 0 then some (-1, r2.2)
      else
        let stream := r2.2
        let newpos := if whence = SEEK_SET then offset else offset + pos
        match textmode_fseek_loop (stream.data.length + 1) stream 0 newpos with
        | none => none
        | some (pos, stream) => some (if pos = newpos then 0 else -1, stream)

/-! ## `textmode_fseek` on a stream in text mode -/

/-- The characters that reading the bytes `bytes` to the end delivers on a
stream in text mode: when the platform translates line ends (`translate`), the
pair CR LF is read as the single character LF; otherwise the bytes are read as
they are. -/
def TextStream.readable (translate : Bool) : List Nat → List Nat
  | [] => []
  | [b] => [b]
  | b :: c :: rest =>
    if translate && b == 13 && c == 10 then 10 :: TextStream.readable translate rest
    else b :: TextStream.readable translate (c :: rest)

/-- The call `fgetc(stream)` on a stream in text mode: `stream.pos` is the
physical position, which moves over both bytes of a translated CR LF. -/
def TextStream.fgetc (translate : Bool) (stream : FILE) : Option Nat × FILE :=
  match stream.data.drop stream.pos with
  | [] => (none, { stream with eof := true })
  | b :: rest =>
    match rest with
    | [] => (some b, { stream with pos := stream.pos + 1 })
    | c :: _ =>
      if translate && b == 13 && c == 10 then (some 10, { stream with pos := stream.pos + 2 })
      else (some b, { stream with pos := stream.pos + 1 })

/-- The loop `while(pos < newpos && fgetc(stream) != EOF) pos++` of
`textmode_fseek` on a stream in text mode; the first argument bounds the number
of iterations, `none` is returned when the bound is hit. -/
def TextStream.textmode_fseek_loop (translate : Bool) :
    Nat → FILE → Int → Int → Option (Int × FILE)
  | 0, _, _, _ => none
  | fuel + 1, stream, pos, newpos =>
    if pos < newpos then
      match TextStream.fgetc translate stream with
      | (some _, stream) => TextStream.textmode_fseek_loop translate fuel stream (pos + 1) newpos
      | (none, stream) => some (pos, stream)
    else some (pos, stream)

/-- The function `textmode_fseek(stream, offset, whence)` on a stream in text
mode: `FSEEK` and `ftell` work on physical positions, `fgetc` reads characters.
Every `fgetc` moves over at least one byte, hence the bound given to the
loop. -/
def TextStream.textmode_fseek (translate : Bool) (stream : FILE) (offset : Int) (whence : Nat) :
    Option (Int × FILE) :=
  let r1 := if whence = SEEK_END then FSEEK stream 0 SEEK_END else (0, stream)
  if r1.1 ≠ 0 then some (-1, r1.2)
  else
    let stream := r1.2
    let pos := ftell stream
    if pos = -1 then some (-1, stream)
    else
      let r2 := FSEEK stream 0 SEEK_SET
      if r2.1 ≠ 0 then some (-1, r2.2)
      else
        let stream := r2.2
        let newpos := if whence = SEEK_SET then offset else offset + pos
        match TextStream.textmode_fseek_loop translate (stream.data.length + 1) stream 0 newpos with
        | none => none
        | some (pos, stream) => some (if pos = newpos then 0 else -1, stream)

/-! ## `memcrlf` and `file2string` -/

/-- The macro `ISCRLF(x)`: `x` is CR, LF or NUL. -/
def ISCRLF (x : Nat) : Bool := x == 13 || x == 10 || x == 0

/-- The `for` loop of `memcrlf`: `max` counts down while the offset
`ptr - orig` counts up; `total` is the value of `max` on entry. -/
def memcrlf_loop (orig : List Nat) (countcrlf : Bool) (total : Nat) : Nat → Nat → Nat
  | 0, _ => total
  | max + 1, off =>
    let crlf := ISCRLF (orig.getD off 0)
    if Bool.xor countcrlf crlf then off
    else memcrlf_loop orig countcrlf total max (off + 1)

/-- The function `memcrlf(orig, countcrlf, max)`. -/
def memcrlf (orig : List Nat) (countcrlf : Bool) (max : Nat) : Nat :=
  memcrlf_loop orig countcrlf max max 0

/-- The conversion `(size_t)x` of a `curl_off_t`, `size_t` being 64 bits wide. -/
def size_t (x : Int) : Nat := (x % 2 ^ 64).toNat

/-- The number of elements asked of `fread` in one round of `file2string`:
`sizeof(buffer)` is 4096. -/
def file2string_elt_cnt (rangelen_set : Bool) (rangelen : Int) : Nat :=
  if rangelen_set && decide (rangelen < 4096) then size_t rangelen else 4096

/-- The loop `while(nread)` of `file2string` over the bytes at `ptr`: the
accumulator afterwards, or the error returned from inside the loop. The first
argument bounds the number of iterations, `none` is returned when the bound is
hit. -/
def file2string_strip (toobig : Nat) :
    Nat → List Nat → Nat → List Nat → Option (Except ParameterError (List Nat))
  | 0, _, _, _ => none
  | fuel + 1, ptr, nread, dyn =>
    if nread = 0 then some (.ok dyn)
    else
      let nlen := memcrlf ptr false nread
      match curlx_dyn_addn toobig dyn (ptr.take nlen) with
      | none => some (.error PARAM_NO_MEM)
      | some dyn =>
        let nread := nread - nlen
        if nread ≠ 0 then
          let ptr := ptr.drop nlen
          let nlen := memcrlf ptr true nread
          file2string_strip toobig fuel (ptr.drop nlen) (nread - nlen) dyn
        else
          file2string_strip toobig fuel ptr nread dyn

/-- What a call of `file2string` leaves behind: the value returned and the
string handed back in `*bufp` (`none` when `*bufp` is `NULL` or not written). -/
structure Loaded where
  ret : ParameterError
  bufp : Option (List Nat)
  deriving DecidableEq, Repr

/-- The `do ... while(!feof(file))` loop of `file2string`. The first argument
bounds the number of rounds, `none` is returned when the bound is hit. A
request of more than 4096 elements overruns `buffer` in the C code; here the
bytes read are kept as they are. -/
def file2string_loop (toobig : Nat) :
    Nat → FILE → Bool → Int → List Nat → Option Loaded
  | 0, _, _, _, _ => none
  | fuel + 1, file, rangelen_set, rangelen, dyn =>
    let elt_cnt := file2string_elt_cnt rangelen_set rangelen
    let r := fread file elt_cnt
    let buffer := r.1
    let file := r.2
    let nread := buffer.length
    if ferror file then some ⟨PARAM_READ_ERROR, none⟩
    else
      let rangelen := rangelen - (nread : Int)
      match file2string_strip toobig (nread + 1) buffer nread dyn with
      | none => none
      | some (.error e) => some ⟨e, none⟩
      | some (.ok dyn) =>
        if rangelen_set && decide (rangelen ≤ 0) then some ⟨PARAM_OK, some dyn⟩
        else if !feof file then file2string_loop toobig fuel file rangelen_set rangelen dyn
        else some ⟨PARAM_OK, some dyn⟩

/-- The function `file2string(bufp, file, filelimit, start, end)` on an open
stream (`file` is not `NULL`). `MAX_FILE2MEMORY` is the capacity constant that
`MAX_FILE2STRING` is defined as. Every round of the loop either ends it or reads
at least one byte, hence the bound given to the loop. -/
def file2string (MAX_FILE2MEMORY : Nat) (file : FILE) (filelimit : Nat) (start end_ : Int) :
    Option Loaded :=
  let s1 := if filelimit = FILELIMIT_START then textmode_fseek file start SEEK_SET
            else some (0, file)
  match s1 with
  | none => none
  | some (r1, file) =>
    if r1 ≠ 0 then some ⟨PARAM_FSEEK_ERROR, none⟩
    else
      let s2 := if filelimit = FILELIMIT_END then textmode_fseek file (-end_) SEEK_END
                else some (0, file)
      match s2 with
      | none => none
      | some (r2, file) =>
        if r2 ≠ 0 then some ⟨PARAM_FSEEK_ERROR, none⟩
        else
          let s3 := if filelimit = (FILELIMIT_START ||| FILELIMIT_END)
                    then textmode_fseek file start SEEK_SET else some (0, file)
          match s3 with
          | none => none
          | some (r3, file) =>
            if r3 ≠ 0 then some ⟨PARAM_FSEEK_ERROR, none⟩
            else
              let rangelen_set := decide (filelimit = (FILELIMIT_START ||| FILELIMIT_END))
              let rangelen : Int := if rangelen_set then end_ - start + 1 else 0
              file2string_loop MAX_FILE2MEMORY (file.data.length + 1) file rangelen_set
                rangelen []

/-- The rounds of the `do ... while` loop of `file2string` on the chunks that
successive `fread` calls store in `buffer`: every chunk goes through the
`while(nread)` loop, and an error returned from inside it ends the rounds. -/
def file2string_chunks (toobig : Nat) :
    List (List Nat) → List Nat → Option (Except ParameterError (List Nat))
  | [], dyn => some (.ok dyn)
  | buffer :: rest, dyn =>
    match file2string_strip toobig (buffer.length + 1) buffer buffer.length dyn with
    | none => none
    | some (.error e) => some (.error e)
    | some (.ok dyn) => file2string_chunks toobig rest dyn

/-! ## `file2memory` -/

/-- What a call of `file2memory` leaves behind: the value returned, `*size` and
the buffer handed back in `*bufp` (`none` when not written; a `NULL` buffer is
`none` as well). -/
structure Memory where
  ret : ParameterError
  size : Option Nat
  bufp : Option (List Nat)
  deriving DecidableEq, Repr

/-- The `curl_off_t elt_cnt` of one round of `file2memory`, which `fread` is
given as `(size_t)elt_cnt`: `sizeof(buffer)` is 4096. -/
def file2memory_elt_cnt (rangelen_set : Bool) (rangelen : Int) : Int :=
  if rangelen_set && decide (rangelen < 4096) then rangelen else 4096

/-- The `do ... while(!feof(file))` loop of `file2memory`. The first argument
bounds the number of rounds, `none` is returned when the bound is hit. A
request of more than 4096 elements overruns `buffer` in the C code; here the
bytes read are kept as they are. -/
def file2memory_loop (toobig : Nat) :
    Nat → FILE → Bool → Int → List Nat → Option Memory
  | 0, _, _, _, _ => none
  | fuel + 1, file, rangelen_set, rangelen, dyn =>
    let elt_cnt := file2memory_elt_cnt rangelen_set rangelen
    let r := fread file (size_t elt_cnt)
    let buffer := r.1
    let file := r.2
    let nread := buffer.length
    let rangelen := rangelen - (nread : Int)
    if ferror file then some ⟨PARAM_READ_ERROR, some 0, none⟩
    else
      match (if nread ≠ 0 then curlx_dyn_addn toobig dyn buffer else some dyn) with
      | none => some ⟨PARAM_NO_MEM, none, none⟩
      | some dyn =>
        if rangelen_set && decide (rangelen ≤ 0) then some ⟨PARAM_OK, some dyn.length, some dyn⟩
        else if !feof file then file2memory_loop toobig fuel file rangelen_set rangelen dyn
        else some ⟨PARAM_OK, some dyn.length, some dyn⟩

/-- The function `file2memory(bufp, size, file, filelimit, start, end)` on an
open stream (`file` is not `NULL`), with `FSEEK` in its `fseeko` form. Every
round of the loop either ends it or reads at least one byte, hence the bound
given to the loop. -/
def file2memory (MAX_FILE2MEMORY : Nat) (file : FILE) (filelimit : Nat) (start end_ : Int) :
    Option Memory :=
  let s1 := if filelimit = FILELIMIT_START then FSEEK file start SEEK_SET else (0, file)
  if s1.1 ≠ 0 then some ⟨PARAM_FSEEK_ERROR, none, none⟩
  else
    let file := s1.2
    let s2 := if filelimit = FILELIMIT_END then FSEEK file (-end_) SEEK_END else (0, file)
    if s2.1 ≠ 0 then some ⟨PARAM_FSEEK_ERROR, none, none⟩
    else
      let file := s2.2
      let s3 := if filelimit = (FILELIMIT_START ||| FILELIMIT_END)
                then FSEEK file start SEEK_SET else (0, file)
      if s3.1 ≠ 0 then some ⟨PARAM_FSEEK_ERROR, none, none⟩
      else
        let file := s3.2
        let rangelen_set := decide (filelimit = (FILELIMIT_START ||| FILELIMIT_END))
        let rangelen : Int := if rangelen_set then end_ - start + 1 else 0
        file2memory_loop MAX_FILE2MEMORY (file.data.length + 1) file rangelen_set rangelen []

/-! ## `getnum`, `str2unum` and `str2unummax` -/

/-- The test `isspace(c)` of libc in the C locale. -/
def isspace (c : Char) : Bool :=
  c == ' ' || c == '\t' || c == '\n' || c == '\x0b' || c == '\x0c' || c == '\r'

/-- Largest value of a `long`, taken as 64 bits wide. -/
def LONG_MAX : Int := 2 ^ 63 - 1

/-- Smallest value of a `long`, taken as 64 bits wide. -/
def LONG_MIN : Int := -(2 ^ 63)

/-- Value of a character as a digit of `strtol`: `0`-`9`, then the letters of
either case from 10 on. -/
def digitVal (c : Char) : Option Nat :=
  if c.isDigit then some (c.toNat - 48)
  else if c.isLower then some (c.toNat - 97 + 10)
  else if c.isUpper then some (c.toNat - 65 + 10)
  else none

/-- The call `strtol(str, &endptr, base)` of libc for the bases 8 and 10 used
here: white space, an optional sign, then the digits of the base. The result is
the number, the offset `endptr - str` (`0` when there is no digit) and whether
`errno` is `ERANGE`, in which case the number is `LONG_MAX` or `LONG_MIN`. -/
def strtol (str : List Char) (base : Nat) : Int × Nat × Bool :=
  let ws := str.takeWhile isspace
  let s1 := str.drop ws.length
  let neg : Bool := s1.head? == some '-'
  let signed : Bool := s1.head? == some '-' || s1.head? == some '+'
  let s2 := if signed then s1.drop 1 else s1
  let ds := s2.takeWhile (fun c => match digitVal c with
    | some v => decide (v < base)
    | none => false)
  if ds = [] then (0, 0, false)
  else
    let mag : Nat := ds.foldl (fun acc c => acc * base + (digitVal c).getD 0) 0
    let endoff := ws.length + (if signed then 1 else 0) + ds.length
    if neg then
      if (mag : Int) > -LONG_MIN then (LONG_MIN, endoff, true) else (-(mag : Int), endoff, false)
    else
      if (mag : Int) > LONG_MAX then (LONG_MAX, endoff, true) else ((mag : Int), endoff, false)

/-- The function `getnum(val, str, base)`: the value returned and `*val`
afterwards; `val` is `*val` before the call and `str` is `none` for `NULL`. -/
def getnum (val : Int) (str : Option (List Char)) (base : Nat) : ParameterError × Int :=
  match str with
  | some s =>
    if s.getD 0 '\x00' = '\x00' then (PARAM_BLANK_STRING, val)
    else
      let r := strtol s base
      let num := r.1
      let endptr := r.2.1
      if r.2.2 then (PARAM_NUMBER_TOO_LARGE, val)
      else if endptr ≠ 0 ∧ s.getD endptr '\x00' = '\x00' then (PARAM_OK, num)
      else (PARAM_BAD_NUMERIC, val)
  | none => (PARAM_BAD_NUMERIC, val)

/-- The function `str2unum(val, str)`. -/
def str2unum (val : Int) (str : Option (List Char)) : ParameterError × Int :=
  let r := getnum val str 10
  if r.1 ≠ PARAM_OK then r
  else if r.2 < 0 then (PARAM_NEGATIVE_NUMERIC, r.2)
  else (PARAM_OK, r.2)

/-- The function `str2unummax(val, str, max)`. -/
def str2unummax (val : Int) (str : Option (List Char)) (max : Int) : ParameterError × Int :=
  let r := str2unum val str
  if r.1 ≠ PARAM_OK then r
  else if r.2 > max then (PARAM_NUMBER_TOO_LARGE, r.2)
  else (PARAM_OK, r.2)

/-! ## Reading a string at a known position -/

theorem getD_append_cons (a : List Char) (c : Char) (b : List Char) (d : Char) :
    (a ++ c :: b).getD a.length d = c := by
  induction a with
  | nil => rfl
  | cons x a ih => simpa using ih

theorem getD_append_cons_succ (a : List Char) (c : Char) (b : List Char) (d : Char) :
    (a ++ c :: b).getD (a.length + 1) d = b.headD d := by
  induction a with
  | nil => cases b <;> rfl
  | cons x a ih => simpa using ih

theorem drop_append_cons_succ (a : List Char) (c : Char) (b : List Char) :
    (a ++ c :: b).drop (a.length + 1) = b := by
  induction a with
  | nil => simp
  | cons x a ih => simp

theorem take_append_cons (a : List Char) (c : Char) (b : List Char) :
    (a ++ c :: b).take a.length = a := by
  simp

theorem isDigit_mem (c : Char) (h : c.isDigit = true) :
    c ∈ ['0', '1', '2', '3', '4', '5', '6', '7', '8', '9'] := by
  have h1 : 48 ≤ c.toNat ∧ c.toNat ≤ 57 := by
    simp only [Char.isDigit, Bool.and_eq_true, decide_eq_true_eq] at h
    exact ⟨h.1, h.2⟩
  have h2 : c = Char.ofNat c.toNat := (Char.ofNat_toNat c).symm
  obtain ⟨h3, h4⟩ := h1
  generalize c.toNat = n at h2 h3 h4
  subst h2
  interval_cases n <;> decide

/-! ## One iteration of the scan, at a known position -/

/-- One iteration of the loop with `ptr_range` on the character `c` of
`a ++ c :: b`: the body of the loop read off `c`, the text `b` after it and the
text `a` before it. -/
theorem loop_step (a : List Char) (c : Char) (b : List Char) (ha : a ≠ [])
    (hm : Bool) (fl : Nat) (st en : Int) :
    filename_extract_limits_loop (a ++ c :: b) a.length hm fl st en =
      if !strchr "0123456789-!".toList c then ⟨0, st, en, a ++ c :: b⟩
      else if c == '!' then
        if b.headD '\x00' != '-' then
          if (curlx_strtoofft b st).1 ≠ CURL_OFFT_OK then
            ⟨0, (curlx_strtoofft b st).2, en, a ++ c :: b⟩
          else
            ⟨fl ||| FILELIMIT_START, (curlx_strtoofft b st).2, en,
              if (hm || c == '-') && (fl ||| FILELIMIT_START) != 0 then a else a ++ c :: b⟩
        else
          ⟨fl, st, en, if (hm || c == '-') && fl != 0 then a else a ++ c :: b⟩
      else if c == '-' && b.elem '-' then ⟨0, st, en, a ++ c :: b⟩
      else if c == '-' && b.headD '\x00' != '\x00' then
        if (curlx_strtoofft b en).1 ≠ CURL_OFFT_OK then
          ⟨0, st, (curlx_strtoofft b en).2, a ++ c :: b⟩
        else
          filename_extract_limits_loop (a ++ c :: b) (a.length - 1) (hm || c == '-')
            FILELIMIT_END st (curlx_strtoofft b en).2
      else
        filename_extract_limits_loop (a ++ c :: b) (a.length - 1) (hm || c == '-') fl st en := by
  obtain ⟨i, hi⟩ : ∃ i, a.length = i + 1 := by
    cases a with
    | nil => exact absurd rfl ha
    | cons x t => exact ⟨t.length, rfl⟩
  have h1 := getD_append_cons a c b '\x00'
  have h2 := getD_append_cons_succ a c b '\x00'
  have h3 := drop_append_cons_succ a c b
  have h4 := take_append_cons a c b
  rw [hi] at h1 h2 h3 h4 ⊢
  simp only [filename_extract_limits_loop, h1, h2, h3, h4, Nat.add_sub_cancel]

theorem strchr_digit (c : Char) (h : c.isDigit = true) :
    strchr "0123456789-!".toList c = true ∧ (c == '!') = false ∧ (c == '-') = false ∧
      c ≠ '\x00' := by
  have := isDigit_mem c h
  simp only [List.mem_cons, List.mem_singleton, List.not_mem_nil, or_false] at this
  rcases this with h | h | h | h | h | h | h | h | h | h <;> subst h <;> decide

/-- A digit under `ptr_range` is stepped over without any effect. -/
theorem loop_step_digit (a : List Char) (c : Char) (b : List Char) (ha : a ≠ [])
    (hc : c.isDigit = true) (hm : Bool) (fl : Nat) (st en : Int) :
    filename_extract_limits_loop (a ++ c :: b) a.length hm fl st en =
      filename_extract_limits_loop (a ++ c :: b) (a.length - 1) hm fl st en := by
  obtain ⟨h1, h2, h3, -⟩ := strchr_digit c hc
  rw [loop_step a c b ha]
  simp only [h1, h2, h3]
  simp

/-- A run of digits is stepped over without any effect. -/
theorem loop_digits (a : List Char) (ha : a ≠ []) (ds : List Char) :
    (∀ c ∈ ds, c.isDigit = true) → ∀ (b : List Char) (hm : Bool) (fl : Nat) (st en : Int),
    filename_extract_limits_loop (a ++ (ds ++ b)) ((a ++ ds).length - 1) hm fl st en =
      filename_extract_limits_loop (a ++ (ds ++ b)) (a.length - 1) hm fl st en := by
  induction ds using List.reverseRecOn with
  | nil => intro _ b hm fl st en; simp
  | append_singleton ds d ih =>
    intro hds b hm fl st en
    have hd : d.isDigit = true := hds d (by simp)
    have hds1 : ∀ c ∈ ds, c.isDigit = true := fun c hc => hds c (by simp [hc])
    have e1 : a ++ (ds ++ [d] ++ b) = (a ++ ds) ++ d :: b := by simp
    have e2 : (a ++ (ds ++ [d])).length - 1 = (a ++ ds).length := by simp
    rw [e2, e1, loop_step_digit (a ++ ds) d b (by simp [ha]) hd]
    have e3 : (a ++ ds) ++ d :: b = a ++ (ds ++ d :: b) := by simp
    rw [e3]
    exact ih hds1 (d :: b) hm fl st en

/-! ## The integer parser on digit strings -/

theorem takeWhile_digits_append (x rest : List Char) (hx : ∀ c ∈ x, c.isDigit = true)
    (hrest : rest.takeWhile Char.isDigit = []) :
    (x ++ rest).takeWhile Char.isDigit = x := by
  induction x with
  | nil => simpa using hrest
  | cons c x ih =>
    have hc : c.isDigit = true := hx c (by simp)
    have hx1 : ∀ d ∈ x, d.isDigit = true := fun d hd => hx d (by simp [hd])
    simp [List.takeWhile_cons, hc, ih hx1]

/-- On a non-empty digit string `x` whose value fits in `curl_off_t`, followed
by text that does not start with a digit, the parser stores the value of `x`. -/
theorem curlx_strtoofft_digits (x rest : List Char) (num : Int) (hx0 : x ≠ [])
    (hx : ∀ c ∈ x, c.isDigit = true) (hfit : decVal x ≤ CURL_OFF_T_MAX)
    (hrest : rest.takeWhile Char.isDigit = []) :
    curlx_strtoofft (x ++ rest) num = (CURL_OFFT_OK, (decVal x : Int)) := by
  unfold curlx_strtoofft
  rw [takeWhile_digits_append x rest hx hrest]
  simp [hx0, Nat.not_lt.mpr hfit]

/-- On a digit string whose value does not fit in `curl_off_t` the parser
reports an overflow. -/
theorem curlx_strtoofft_overflow (x rest : List Char) (num : Int)
    (hx : ∀ c ∈ x, c.isDigit = true) (hbig : CURL_OFF_T_MAX < decVal x)
    (hrest : rest.takeWhile Char.isDigit = []) :
    (curlx_strtoofft (x ++ rest) num).1 = CURL_OFFT_FLOW := by
  have hx0 : x ≠ [] := by
    rintro rfl
    simp [decVal] at hbig
  unfold curlx_strtoofft
  rw [takeWhile_digits_append x rest hx hrest]
  simp [hx0, hbig]

theorem headD_digits (x rest : List Char) (hx0 : x ≠ []) (hx : ∀ c ∈ x, c.isDigit = true) :
    (x ++ rest).headD '\x00' ≠ '-' ∧ (x ++ rest).headD '\x00' ≠ '\x00' := by
  cases x with
  | nil => exact absurd rfl hx0
  | cons c t =>
    obtain ⟨-, -, h3, h4⟩ := strchr_digit c (hx c (by simp))
    refine ⟨?_, ?_⟩
    · simpa using h3
    · simpa using h4

theorem not_elem_minus_digits (x : List Char) (hx : ∀ c ∈ x, c.isDigit = true) :
    x.elem '-' = false := by
  rw [Bool.eq_false_iff]
  intro h
  have hmem : '-' ∈ x := by simpa using h
  have := hx _ hmem
  revert this
  decide

/-! ## The scan on the three suffix forms -/

/-- The scan of `a ++ "-" ++ y` from the `-`, `y` a digit string that fits:
`*end` receives the value of `y` and the flags become `FILELIMIT_END`. -/
theorem loop_minus_digits (a y : List Char) (ha : a ≠ []) (hy0 : y ≠ [])
    (hy : ∀ c ∈ y, c.isDigit = true) (hfit : decVal y ≤ CURL_OFF_T_MAX)
    (hm : Bool) (fl : Nat) (st en : Int) :
    filename_extract_limits_loop (a ++ '-' :: y) a.length hm fl st en =
      filename_extract_limits_loop (a ++ '-' :: y) (a.length - 1) true FILELIMIT_END st
        (decVal y : Int) := by
  have hp := curlx_strtoofft_digits y [] en hy0 hy hfit rfl
  rw [List.append_nil] at hp
  have hh := (headD_digits y [] hy0 hy).2
  rw [List.append_nil] at hh
  have hb : (y.headD '\x00' != '\x00') = true := bne_iff_ne.mpr hh
  have he := not_elem_minus_digits y hy
  have hs : strchr "0123456789-!".toList '-' = true := by decide
  rw [loop_step a '-' y ha]
  simp only [hs, hp, he, hb]
  simp

/-- The scan of `a ++ "-"` from the final `-`: only `have_minus` is set. -/
theorem loop_minus_last (a : List Char) (ha : a ≠ [])
    (hm : Bool) (fl : Nat) (st en : Int) :
    filename_extract_limits_loop (a ++ ['-']) a.length hm fl st en =
      filename_extract_limits_loop (a ++ ['-']) (a.length - 1) true fl st en := by
  have hs : strchr "0123456789-!".toList '-' = true := by decide
  rw [loop_step a '-' [] ha]
  simp only [hs]
  simp

/-- The scan reaching `!` in `name ++ "!" ++ x ++ rest`, `x` a digit string that
fits and `rest` not starting with a digit: `*start` receives the value of `x`. -/
theorem loop_bang_digits (name x rest : List Char) (hn : name ≠ []) (hx0 : x ≠ [])
    (hx : ∀ c ∈ x, c.isDigit = true) (hfit : decVal x ≤ CURL_OFF_T_MAX)
    (hrest : rest.takeWhile Char.isDigit = [])
    (hm : Bool) (fl : Nat) (st en : Int) :
    filename_extract_limits_loop (name ++ '!' :: (x ++ rest)) name.length hm fl st en =
      ⟨fl ||| FILELIMIT_START, (decVal x : Int), en,
        if hm && (fl ||| FILELIMIT_START) != 0 then name else name ++ '!' :: (x ++ rest)⟩ := by
  have hp := curlx_strtoofft_digits x rest st hx0 hx hfit hrest
  have hh := (headD_digits x rest hx0 hx).1
  have hb : ((x ++ rest).headD '\x00' != '-') = true := bne_iff_ne.mpr hh
  have hs : strchr "0123456789-!".toList '!' = true := by decide
  rw [loop_step name '!' (x ++ rest) hn]
  simp only [hs, hp, hb]
  simp

/-- The scan reaching `!` in `name ++ "!-" ++ y`: `*start` is not written. -/
theorem loop_bang_minus (name y : List Char) (hn : name ≠ [])
    (hm : Bool) (fl : Nat) (st en : Int) :
    filename_extract_limits_loop (name ++ '!' :: '-' :: y) name.length hm fl st en =
      ⟨fl, st, en, if hm && fl != 0 then name else name ++ '!' :: '-' :: y⟩ := by
  have hs : strchr "0123456789-!".toList '!' = true := by decide
  rw [loop_step name '!' ('-' :: y) hn]
  simp only [hs]
  simp

/-- Result of the call on the form `name!x-y`. -/
theorem extract_both (name x y : List Char) (st en : Int) (hn : name ≠ [])
    (hx0 : x ≠ []) (hx : ∀ c ∈ x, c.isDigit = true) (hxfit : decVal x ≤ CURL_OFF_T_MAX)
    (hy0 : y ≠ []) (hy : ∀ c ∈ y, c.isDigit = true) (hyfit : decVal y ≤ CURL_OFF_T_MAX) :
    filename_extract_limits (name ++ '!' :: (x ++ '-' :: y)) st en =
      ⟨FILELIMIT_START ||| FILELIMIT_END, (decVal x : Int), (decVal y : Int), name⟩ := by
  unfold filename_extract_limits
  have e1 : name ++ '!' :: (x ++ '-' :: y) = (name ++ '!' :: (x ++ ['-'])) ++ (y ++ []) := by
    simp
  have n1 : (name ++ '!' :: (x ++ '-' :: y)).length - 1
      = ((name ++ '!' :: (x ++ ['-'])) ++ y).length - 1 := by simp
  rw [n1, e1, loop_digits _ (by simp) y hy]
  have e2 : (name ++ '!' :: (x ++ ['-'])) ++ (y ++ []) = (name ++ '!' :: x) ++ '-' :: y := by
    simp
  have n2 : (name ++ '!' :: (x ++ ['-'])).length - 1 = (name ++ '!' :: x).length := by simp
  rw [n2, e2, loop_minus_digits _ y (by simp) hy0 hy hyfit]
  have e3 : (name ++ '!' :: x) ++ '-' :: y = (name ++ ['!']) ++ (x ++ '-' :: y) := by simp
  have n3 : (name ++ '!' :: x).length - 1 = ((name ++ ['!']) ++ x).length - 1 := by simp
  rw [n3, e3, loop_digits _ (by simp) x hx]
  have e4 : (name ++ ['!']) ++ (x ++ '-' :: y) = name ++ '!' :: (x ++ '-' :: y) := by simp
  have n4 : (name ++ ['!']).length - 1 = name.length := by simp
  rw [n4, e4, loop_bang_digits name x ('-' :: y) hn hx0 hx hxfit (by simp)]
  simp [FILELIMIT_START, FILELIMIT_END]

/-- Result of the call on the form `name!-y`. -/
theorem extract_end (name y : List Char) (st en : Int) (hn : name ≠ [])
    (hy0 : y ≠ []) (hy : ∀ c ∈ y, c.isDigit = true) (hyfit : decVal y ≤ CURL_OFF_T_MAX) :
    filename_extract_limits (name ++ '!' :: '-' :: y) st en =
      ⟨FILELIMIT_END, st, (decVal y : Int), name⟩ := by
  unfold filename_extract_limits
  have e1 : name ++ '!' :: '-' :: y = (name ++ ['!', '-']) ++ (y ++ []) := by simp
  have n1 : (name ++ '!' :: '-' :: y).length - 1 = ((name ++ ['!', '-']) ++ y).length - 1 := by
    simp
  rw [n1, e1, loop_digits _ (by simp) y hy]
  have e2 : (name ++ ['!', '-']) ++ (y ++ []) = (name ++ ['!']) ++ '-' :: y := by simp
  have n2 : (name ++ ['!', '-']).length - 1 = (name ++ ['!']).length := by simp
  rw [n2, e2, loop_minus_digits _ y (by simp) hy0 hy hyfit]
  have e3 : (name ++ ['!']) ++ '-' :: y = name ++ '!' :: '-' :: y := by simp
  have n3 : (name ++ ['!']).length - 1 = name.length := by simp
  rw [n3, e3, loop_bang_minus name y hn]
  simp [FILELIMIT_END]

/-- Result of the call on the form `name!x-`. -/
theorem extract_start (name x : List Char) (st en : Int) (hn : name ≠ [])
    (hx0 : x ≠ []) (hx : ∀ c ∈ x, c.isDigit = true) (hxfit : decVal x ≤ CURL_OFF_T_MAX) :
    filename_extract_limits (name ++ '!' :: (x ++ ['-'])) st en =
      ⟨FILELIMIT_START, (decVal x : Int), en, name⟩ := by
  unfold filename_extract_limits
  have e1 : name ++ '!' :: (x ++ ['-']) = (name ++ '!' :: x) ++ ['-'] := by simp
  have n1 : (name ++ '!' :: (x ++ ['-'])).length - 1 = (name ++ '!' :: x).length := by simp
  rw [n1, e1, loop_minus_last _ (by simp)]
  have e2 : (name ++ '!' :: x) ++ ['-'] = (name ++ ['!']) ++ (x ++ ['-']) := by simp
  have n2 : (name ++ '!' :: x).length - 1 = ((name ++ ['!']) ++ x).length - 1 := by simp
  rw [n2, e2, loop_digits _ (by simp) x hx]
  have e3 : (name ++ ['!']) ++ (x ++ ['-']) = name ++ '!' :: (x ++ ['-']) := by simp
  have n3 : (name ++ ['!']).length - 1 = name.length := by simp
  rw [n3, e3, loop_bang_digits name x ['-'] hn hx0 hx hxfit (by simp)]
  simp [FILELIMIT_START]

/-- The call on the form `name!x-y` returns `0` when `y` overflows, and also
when `y` fits and `x` overflows. -/
theorem extract_overflow (name x y : List Char) (st en : Int) (hn : name ≠ [])
    (hx : ∀ c ∈ x, c.isDigit = true) (hy0 : y ≠ []) (hy : ∀ c ∈ y, c.isDigit = true)
    (hbig : CURL_OFF_T_MAX < decVal x ∨ CURL_OFF_T_MAX < decVal y) :
    (filename_extract_limits (name ++ '!' :: (x ++ '-' :: y)) st en).ret = 0 := by
  unfold filename_extract_limits
  have e1 : name ++ '!' :: (x ++ '-' :: y) = (name ++ '!' :: (x ++ ['-'])) ++ (y ++ []) := by
    simp
  have n1 : (name ++ '!' :: (x ++ '-' :: y)).length - 1
      = ((name ++ '!' :: (x ++ ['-'])) ++ y).length - 1 := by simp
  rw [n1, e1, loop_digits _ (by simp) y hy]
  have e2 : (name ++ '!' :: (x ++ ['-'])) ++ (y ++ []) = (name ++ '!' :: x) ++ '-' :: y := by
    simp
  have n2 : (name ++ '!' :: (x ++ ['-'])).length - 1 = (name ++ '!' :: x).length := by simp
  rw [n2, e2]
  have hs1 : strchr "0123456789-!".toList '-' = true := by decide
  have hs2 : strchr "0123456789-!".toList '!' = true := by decide
  by_cases hyb : CURL_OFF_T_MAX < decVal y
  · have hp := curlx_strtoofft_overflow y [] en hy hyb rfl
    rw [List.append_nil] at hp
    have hh : (y.headD '\x00' != '\x00') = true := by
      have := (headD_digits y [] hy0 hy).2
      rw [List.append_nil] at this
      exact bne_iff_ne.mpr this
    rw [loop_step _ '-' y (by simp)]
    simp only [hs1, hp, not_elem_minus_digits y hy, hh]
    simp
  · have hxb : CURL_OFF_T_MAX < decVal x := hbig.resolve_right hyb
    have hx0 : x ≠ [] := by
      rintro rfl
      simp [decVal] at hxb
    rw [loop_minus_digits _ y (by simp) hy0 hy (Nat.not_lt.mp hyb)]
    have e3 : (name ++ '!' :: x) ++ '-' :: y = (name ++ ['!']) ++ (x ++ '-' :: y) := by simp
    have n3 : (name ++ '!' :: x).length - 1 = ((name ++ ['!']) ++ x).length - 1 := by simp
    rw [n3, e3, loop_digits _ (by simp) x hx]
    have e4 : (name ++ ['!']) ++ (x ++ '-' :: y) = name ++ '!' :: (x ++ '-' :: y) := by simp
    have n4 : (name ++ ['!']).length - 1 = name.length := by simp
    rw [n4, e4]
    have hp := curlx_strtoofft_overflow x ('-' :: y) st hx hxb (by simp)
    have hh : ((x ++ '-' :: y).headD '\x00' != '-') = true :=
      bne_iff_ne.mpr (headD_digits x ('-' :: y) hx0 hx).1
    rw [loop_step name '!' (x ++ '-' :: y) hn]
    simp only [hs2, hp, hh]
    simp

/-! ## Scans that are bound to fail -/

/-- If every iteration at offset `p + 1` returns `0` and no `!` stands after
that offset, the scan returns `0` from any offset at or after `p + 1`. -/
theorem loop_ret_zero_above (s : List Char) (p : Nat)
    (hp : ∀ (hm : Bool) (fl : Nat) (st en : Int),
      (filename_extract_limits_loop s (p + 1) hm fl st en).ret = 0)
    (hbang : ∀ j, p + 1 < j → s.getD j '\x00' ≠ '!') :
    ∀ (k : Nat) (hm : Bool) (fl : Nat) (st en : Int),
      (filename_extract_limits_loop s (p + 1 + k) hm fl st en).ret = 0 := by
  intro k
  induction k with
  | zero => exact hp
  | succ k ih =>
    intro hm fl st en
    have hb : (s.getD (p + 1 + k + 1) '\x00' == '!') = false := by
      have := hbang (p + 1 + k + 1) (by omega)
      simpa using this
    show (filename_extract_limits_loop s (p + 1 + k + 1) hm fl st en).ret = 0
    simp only [filename_extract_limits_loop, hb, Bool.false_eq_true, if_false]
    split_ifs <;> first | rfl | exact ih _ _ _ _

/-- The same, stated for the call: the scan starts at the last character. -/
theorem extract_ret_zero_of (s : List Char) (st en : Int) (p : Nat) (hlen : p + 2 ≤ s.length)
    (hp : ∀ (hm : Bool) (fl : Nat) (st en : Int),
      (filename_extract_limits_loop s (p + 1) hm fl st en).ret = 0)
    (hbang : ∀ j, p + 1 < j → s.getD j '\x00' ≠ '!') :
    (filename_extract_limits s st en).ret = 0 := by
  unfold filename_extract_limits
  have e : s.length - 1 = p + 1 + (s.length - 1 - (p + 1)) := by omega
  rw [e]
  exact loop_ret_zero_above s p hp hbang _ _ _ _ _

theorem getD_append_cons_after (a : List Char) (c : Char) (b : List Char) (d : Char)
    (j : Nat) (hj : a.length < j) :
    (a ++ c :: b).getD j d = b.getD (j - a.length - 1) d := by
  obtain ⟨k, rfl⟩ : ∃ k, j = a.length + 1 + k := ⟨j - a.length - 1, by omega⟩
  have e : a ++ c :: b = (a ++ [c]) ++ b := by simp
  rw [e, List.getD_eq_getElem?_getD, List.getD_eq_getElem?_getD,
    List.getElem?_append_right (by simp)]
  congr 2
  simp
  omega

theorem getD_ne_of_not_mem (b : List Char) (x d : Char) (hx : x ∉ b) (hd : d ≠ x) (k : Nat) :
    b.getD k d ≠ x := by
  rw [List.getD_eq_getElem?_getD]
  cases h : b[k]? with
  | none => simpa using hd
  | some y =>
    have hy : y ∈ b := List.getElem?_mem h
    simp only [Option.getD_some]
    rintro rfl
    exact hx hy

/-- A scan that meets, at an offset of at least 1, a character that makes the
iteration return `0`, with no `!` after it, returns `0`. -/
theorem extract_ret_zero_at (a : List Char) (c : Char) (b : List Char) (st en : Int)
    (ha : a ≠ []) (hb : '!' ∉ b)
    (hc : ∀ (hm : Bool) (fl : Nat) (st en : Int),
      (filename_extract_limits_loop (a ++ c :: b) a.length hm fl st en).ret = 0) :
    (filename_extract_limits (a ++ c :: b) st en).ret = 0 := by
  obtain ⟨p, hpa⟩ : ∃ p, a.length = p + 1 := by
    cases a with
    | nil => exact absurd rfl ha
    | cons x t => exact ⟨t.length, rfl⟩
  apply extract_ret_zero_of (a ++ c :: b) st en p
  · simp; omega
  · rw [← hpa]; exact hc
  · intro j hj
    rw [getD_append_cons_after a c b _ j (by omega)]
    exact getD_ne_of_not_mem b '!' _ hb (by decide) _

/-! ## `memcrlf` as the length of a leading run -/

theorem memcrlf_loop_eq (orig : List Nat) (countcrlf : Bool) :
    ∀ (max off : Nat), off + max = orig.length →
      memcrlf_loop orig countcrlf orig.length max off =
        off + ((orig.drop off).takeWhile (fun b => ISCRLF b == countcrlf)).length := by
  intro max
  induction max with
  | zero =>
    intro off h
    have : orig.drop off = [] := List.drop_eq_nil_of_le (by omega)
    simp only [memcrlf_loop, this, List.takeWhile_nil, List.length_nil]
    omega
  | succ max ih =>
    intro off h
    have hlt : off < orig.length := by omega
    have hd : orig.drop off = orig[off] :: orig.drop (off + 1) := List.drop_eq_getElem_cons hlt
    have hg : orig.getD off 0 = orig[off] := by
      simp [List.getD_eq_getElem?_getD, List.getElem?_eq_getElem hlt]
    simp only [memcrlf_loop, hg, hd, List.takeWhile_cons]
    cases hx : ISCRLF orig[off] <;> cases countcrlf <;>
      simp [ih (off + 1) (by omega)] <;> omega

/-- On a region of exactly `max` bytes, `memcrlf` is the length of the leading
run of bytes that are terminators (`countcrlf` true) or are not (false). -/
theorem memcrlf_eq (ptr : List Nat) (countcrlf : Bool) :
    memcrlf ptr countcrlf ptr.length =
      (ptr.takeWhile (fun b => ISCRLF b == countcrlf)).length := by
  unfold memcrlf
  rw [memcrlf_loop_eq ptr countcrlf ptr.length 0 (by omega)]
  simp

theorem take_length_takeWhile (p : Nat → Bool) (l : List Nat) :
    l.take (l.takeWhile p).length = l.takeWhile p := by
  induction l with
  | nil => rfl
  | cons x t ih =>
    cases h : p x <;> simp [List.takeWhile_cons, h, ih]

theorem drop_length_takeWhile (p : Nat → Bool) (l : List Nat) :
    l.drop (l.takeWhile p).length = l.dropWhile p := by
  induction l with
  | nil => rfl
  | cons x t ih =>
    cases h : p x <;> simp [List.takeWhile_cons, List.dropWhile_cons, h, ih]

theorem length_takeWhile_add_dropWhile (p : Nat → Bool) (l : List Nat) :
    (l.takeWhile p).length + (l.dropWhile p).length = l.length := by
  rw [← List.length_append, List.takeWhile_append_dropWhile]

theorem filter_eq_takeWhile_append (l : List Nat) :
    l.filter (fun b => !ISCRLF b) =
      l.takeWhile (fun b => ISCRLF b == false) ++
        (l.dropWhile (fun b => ISCRLF b == false)).filter (fun b => !ISCRLF b) := by
  induction l with
  | nil => rfl
  | cons x t ih =>
    cases h : ISCRLF x <;> simp [List.takeWhile_cons, List.dropWhile_cons, List.filter_cons, h]
    simpa using ih

theorem filter_dropWhile_crlf (l : List Nat) :
    (l.dropWhile (fun b => ISCRLF b == true)).filter (fun b => !ISCRLF b) =
      l.filter (fun b => !ISCRLF b) := by
  induction l with
  | nil => rfl
  | cons x t ih =>
    cases h : ISCRLF x <;> simp [List.dropWhile_cons, List.filter_cons, h]
    simpa using ih

theorem length_dropWhile_le (p : Nat → Bool) (l : List Nat) :
    (l.dropWhile p).length ≤ l.length := by
  have := length_takeWhile_add_dropWhile p l
  omega

/-- One round of the strip loop consumes at least one byte of a non-empty
region. -/
theorem length_dropWhile_dropWhile_lt (l : List Nat) (hl : l ≠ []) :
    ((l.dropWhile (fun b => ISCRLF b == false)).dropWhile (fun b => ISCRLF b == true)).length
      < l.length := by
  cases l with
  | nil => exact absurd rfl hl
  | cons x t =>
    cases h : ISCRLF x
    · have h1 := length_dropWhile_le (fun b => ISCRLF b == true)
        (t.dropWhile (fun b => ISCRLF b == false))
      have h2 := length_dropWhile_le (fun b => ISCRLF b == false) t
      simp only [List.dropWhile_cons, h, beq_self_eq_true, if_true, List.length_cons]
      omega
    · have h1 := length_dropWhile_le (fun b => ISCRLF b == true) t
      have e : ((x :: t).dropWhile (fun b => ISCRLF b == false)).dropWhile
          (fun b => ISCRLF b == true) = t.dropWhile (fun b => ISCRLF b == true) := by
        simp [List.dropWhile_cons, h]
      rw [e, List.length_cons]
      omega

/-! ## The strip loop and the read loop without a range -/

theorem file2string_strip_zero (toobig fuel : Nat) (ptr dyn : List Nat) :
    file2string_strip toobig (fuel + 1) ptr 0 dyn = some (.ok dyn) := by
  simp [file2string_strip]

/-- On a chunk of `nread` bytes the strip loop, given as many rounds as the
chunk has bytes and one more, appends the bytes that are not CR, LF or NUL,
provided they fit under the capacity. -/
theorem file2string_strip_eq (toobig : Nat) :
    ∀ (fuel : Nat) (ptr dyn : List Nat), ptr.length < fuel →
      dyn.length + (ptr.filter (fun b => !ISCRLF b)).length ≤ toobig →
      file2string_strip toobig fuel ptr ptr.length dyn =
        some (.ok (dyn ++ ptr.filter (fun b => !ISCRLF b))) := by
  intro fuel
  induction fuel with
  | zero => intro ptr dyn h; omega
  | succ fuel ih =>
    intro ptr dyn hlen hcap
    by_cases hnil : ptr = []
    · subst hnil
      simp [file2string_strip]
    · have hpos : ptr.length ≠ 0 := by
        intro h0
        exact hnil (List.length_eq_zero.mp h0)
      have hsplit := filter_eq_takeWhile_append ptr
      have hsum := length_takeWhile_add_dropWhile (fun b => ISCRLF b == false) ptr
      have hadd : curlx_dyn_addn toobig dyn (ptr.takeWhile (fun b => ISCRLF b == false)) =
          some (dyn ++ ptr.takeWhile (fun b => ISCRLF b == false)) := by
        unfold curlx_dyn_addn
        rw [hsplit, List.length_append] at hcap
        rw [if_neg (by omega)]
      have hrest : ptr.length - (ptr.takeWhile (fun b => ISCRLF b == false)).length =
          (ptr.dropWhile (fun b => ISCRLF b == false)).length := by omega
      rw [file2string_strip, if_neg hpos]
      simp only [memcrlf_eq, take_length_takeWhile, drop_length_takeWhile, hadd, hrest]
      by_cases hz : (ptr.dropWhile (fun b => ISCRLF b == false)).length = 0
      · have hd : ptr.dropWhile (fun b => ISCRLF b == false) = [] := List.length_eq_zero.mp hz
        obtain ⟨f, rfl⟩ : ∃ f, fuel = f + 1 := ⟨fuel - 1, by omega⟩
        simp only [hz, ne_eq, not_true_eq_false, if_false, file2string_strip_zero]
        rw [hsplit, hd]
        simp
      · have hsum2 := length_takeWhile_add_dropWhile (fun b => ISCRLF b == true)
          (ptr.dropWhile (fun b => ISCRLF b == false))
        have hrest2 : (ptr.dropWhile (fun b => ISCRLF b == false)).length -
            ((ptr.dropWhile (fun b => ISCRLF b == false)).takeWhile
              (fun b => ISCRLF b == true)).length =
            ((ptr.dropWhile (fun b => ISCRLF b == false)).dropWhile
              (fun b => ISCRLF b == true)).length := by omega
        have hlt := length_dropWhile_dropWhile_lt ptr hnil
        have hf := filter_dropWhile_crlf (ptr.dropWhile (fun b => ISCRLF b == false))
        simp only [ne_eq, hz, not_false_eq_true, if_true, memcrlf_eq, drop_length_takeWhile,
          hrest2]
        rw [ih _ _ (by omega) (by
          rw [hf, List.length_append]
          rw [hsplit, List.length_append] at hcap
          omega)]
        rw [hf, hsplit, List.append_assoc]

theorem filter_take_append_drop (n : Nat) (l : List Nat) :
    l.filter (fun b => !ISCRLF b) =
      (l.take n).filter (fun b => !ISCRLF b) ++ (l.drop n).filter (fun b => !ISCRLF b) := by
  rw [← List.filter_append, List.take_append_drop]

/-- Without a range, on a stream whose indicators are clear, the read loop
given more rounds than there are bytes left appends the bytes left that are
not CR, LF or NUL, provided they fit under the capacity. -/
theorem file2string_loop_no_range (toobig : Nat) :
    ∀ (fuel : Nat) (file : FILE) (rangelen : Int) (dyn : List Nat),
      file.err = false → file.eof = false → file.data.length - file.pos < fuel →
      dyn.length + ((file.data.drop file.pos).filter (fun b => !ISCRLF b)).length ≤ toobig →
      file2string_loop toobig fuel file false rangelen dyn =
        some ⟨PARAM_OK, some (dyn ++ (file.data.drop file.pos).filter (fun b => !ISCRLF b))⟩ := by
  intro fuel
  induction fuel with
  | zero => intro file rangelen dyn _ _ h; omega
  | succ fuel ih =>
    intro file rangelen dyn herr heof hfuel hcap
    have hsplit := filter_take_append_drop 4096 (file.data.drop file.pos)
    rw [hsplit, List.length_append] at hcap
    have hstrip := file2string_strip_eq toobig
      (((file.data.drop file.pos).take 4096).length + 1)
      ((file.data.drop file.pos).take 4096) dyn (by omega) (by omega)
    rw [file2string_loop]
    simp only [file2string_elt_cnt, Bool.false_and, Bool.false_eq_true, if_false, fread, ferror,
      feof, herr, heof, hstrip, Bool.false_or]
    by_cases hshort : ((file.data.drop file.pos).take 4096).length < 4096
    · have hall : (file.data.drop file.pos).take 4096 = file.data.drop file.pos := by
        apply List.take_of_length_le
        rw [List.length_take] at hshort
        omega
      have hd : decide (((file.data.drop file.pos).take 4096).length < 4096) = true := by
        simpa using hshort
      simp only [hd, Bool.not_true, Bool.false_eq_true, if_false]
      rw [hall]
    · have hfull : ((file.data.drop file.pos).take 4096).length = 4096 := by
        have := List.length_take_le 4096 (file.data.drop file.pos)
        omega
      have hlen : 4096 ≤ file.data.length - file.pos := by
        rw [List.length_take, List.length_drop] at hfull
        omega
      have hd : decide (((file.data.drop file.pos).take 4096).length < 4096) = false := by
        simpa using hshort
      have hdrop : file.data.drop (file.pos + 4096) = (file.data.drop file.pos).drop 4096 := by
        rw [List.drop_drop, Nat.add_comm]
      simp only [hd, Bool.not_false, if_true, hfull]
      refine (ih _ _ _ rfl rfl ?_ ?_).trans ?_
      · show file.data.length - (file.pos + 4096) < fuel
        omega
      · show (dyn ++ _).length + ((file.data.drop (file.pos + 4096)).filter _).length ≤ toobig
        rw [hdrop, List.length_append]
        omega
      · show some (Loaded.mk PARAM_OK (some ((dyn ++ _) ++
          (file.data.drop (file.pos + 4096)).filter _))) = _
        rw [hdrop, hsplit, List.append_assoc]

/-- A character outside the accepted set makes the iteration return `0`. -/
theorem loop_step_reject (a : List Char) (c : Char) (b : List Char) (ha : a ≠ [])
    (hc : c ∉ "0123456789-!".toList) (hnul : c ≠ '\x00')
    (hm : Bool) (fl : Nat) (st en : Int) :
    (filename_extract_limits_loop (a ++ c :: b) a.length hm fl st en).ret = 0 := by
  have hs : strchr "0123456789-!".toList c = false := by
    unfold strchr
    rw [Bool.or_eq_false_iff]
    exact ⟨by simpa using hc, by simpa using hnul⟩
  rw [loop_step a c b ha]
  simp only [hs]
  simp

/-- A `-` followed, later in the string, by another `-` makes the iteration
return `0`. -/
theorem loop_step_second_minus (a b : List Char) (ha : a ≠ []) (hb : '-' ∈ b)
    (hm : Bool) (fl : Nat) (st en : Int) :
    (filename_extract_limits_loop (a ++ '-' :: b) a.length hm fl st en).ret = 0 := by
  have hs : strchr "0123456789-!".toList '-' = true := by decide
  have he : b.elem '-' = true := by simpa using hb
  rw [loop_step a '-' b ha]
  simp only [hs, he]
  simp

theorem exists_minus_before_minus (mid : List Char) (h : 2 ≤ mid.count '-') :
    ∃ m1 m2, mid = m1 ++ '-' :: m2 ∧ '-' ∈ m2 := by
  induction mid with
  | nil => simp at h
  | cons x t ih =>
    by_cases hx : x = '-'
    · subst hx
      refine ⟨[], t, rfl, ?_⟩
      rw [List.count_cons_self] at h
      exact List.count_pos_iff.mp (by omega)
    · rw [List.count_cons_of_ne (Ne.symm hx)] at h
      obtain ⟨m1, m2, e, hm⟩ := ih h
      exact ⟨x :: m1, m2, by rw [e]; rfl, hm⟩

/-! ## The claims on `filename_extract_limits` -/

/-- Claim C1: on a filename `name!x-y`, with `name` non-empty and `x`, `y`
non-empty digit strings whose values fit in `curl_off_t`, the call returns
`FILELIMIT_START | FILELIMIT_END`, stores the value of `x` in `*start` and the
value of `y` in `*end`, and truncates the filename at the `!`, leaving `name`. -/
theorem filename_extract_limits_both (name x y : List Char) (st en : Int)
    (hn : name ≠ [])
    (hx0 : x ≠ []) (hx : ∀ c ∈ x, c.isDigit = true) (hxfit : decVal x ≤ CURL_OFF_T_MAX)
    (hy0 : y ≠ []) (hy : ∀ c ∈ y, c.isDigit = true) (hyfit : decVal y ≤ CURL_OFF_T_MAX) :
    (filename_extract_limits (name ++ "!".toList ++ x ++ "-".toList ++ y) st en).ret
        = FILELIMIT_START ||| FILELIMIT_END ∧
      (filename_extract_limits (name ++ "!".toList ++ x ++ "-".toList ++ y) st en).start
        = (decVal x : Int) ∧
      (filename_extract_limits (name ++ "!".toList ++ x ++ "-".toList ++ y) st en).end_
        = (decVal y : Int) ∧
      (filename_extract_limits (name ++ "!".toList ++ x ++ "-".toList ++ y) st en).filename
        = name := by
  have e : name ++ "!".toList ++ x ++ "-".toList ++ y = name ++ '!' :: (x ++ '-' :: y) := by
    simp
  rw [e, extract_both name x y st en hn hx0 hx hxfit hy0 hy hyfit]
  exact ⟨rfl, rfl, rfl, rfl⟩

/-- The filename `f!10-20` gives the flags of both limits, start 10, end 20 and
the filename `f`. -/
theorem filename_extract_limits_both_witness :
    (filename_extract_limits ("f".toList ++ "!".toList ++ "10".toList ++ "-".toList ++
        "20".toList) 7 8).ret = FILELIMIT_START ||| FILELIMIT_END ∧
      (filename_extract_limits ("f".toList ++ "!".toList ++ "10".toList ++ "-".toList ++
        "20".toList) 7 8).start = (decVal "10".toList : Int) ∧
      (filename_extract_limits ("f".toList ++ "!".toList ++ "10".toList ++ "-".toList ++
        "20".toList) 7 8).end_ = (decVal "20".toList : Int) ∧
      (filename_extract_limits ("f".toList ++ "!".toList ++ "10".toList ++ "-".toList ++
        "20".toList) 7 8).filename = "f".toList :=
  filename_extract_limits_both "f".toList "10".toList "20".toList 7 8 (by decide)
    (by decide) (by decide) (by decide) (by decide) (by decide) (by decide)

/-- Claim C2: on a filename `name!-y`, with `name` non-empty and `y` a
non-empty digit string whose value fits in `curl_off_t`, the call returns
exactly `FILELIMIT_END`, stores the value of `y` in `*end` and leaves `*start`
at its prior value. -/
theorem filename_extract_limits_end_only (name y : List Char) (st en : Int)
    (hn : name ≠ [])
    (hy0 : y ≠ []) (hy : ∀ c ∈ y, c.isDigit = true) (hyfit : decVal y ≤ CURL_OFF_T_MAX) :
    (filename_extract_limits (name ++ "!-".toList ++ y) st en).ret = FILELIMIT_END ∧
      (filename_extract_limits (name ++ "!-".toList ++ y) st en).end_ = (decVal y : Int) ∧
      (filename_extract_limits (name ++ "!-".toList ++ y) st en).start = st := by
  have e : name ++ "!-".toList ++ y = name ++ '!' :: '-' :: y := by simp
  rw [e, extract_end name y st en hn hy0 hy hyfit]
  exact ⟨rfl, rfl, rfl⟩

/-- The filename `f!-20` gives `FILELIMIT_END` and end 20, with `*start` kept. -/
theorem filename_extract_limits_end_only_witness :
    (filename_extract_limits ("f".toList ++ "!-".toList ++ "20".toList) 7 8).ret
        = FILELIMIT_END ∧
      (filename_extract_limits ("f".toList ++ "!-".toList ++ "20".toList) 7 8).end_
        = (decVal "20".toList : Int) ∧
      (filename_extract_limits ("f".toList ++ "!-".toList ++ "20".toList) 7 8).start = 7 :=
  filename_extract_limits_end_only "f".toList "20".toList 7 8 (by decide) (by decide)
    (by decide) (by decide)

/-- Claim C3: on a filename `name!x-`, with `name` non-empty and `x` a
non-empty digit string whose value fits in `curl_off_t`, the call returns
exactly `FILELIMIT_START`, stores the value of `x` in `*start` and leaves `*end`
at its prior value. -/
theorem filename_extract_limits_start_only (name x : List Char) (st en : Int)
    (hn : name ≠ [])
    (hx0 : x ≠ []) (hx : ∀ c ∈ x, c.isDigit = true) (hxfit : decVal x ≤ CURL_OFF_T_MAX) :
    (filename_extract_limits (name ++ "!".toList ++ x ++ "-".toList) st en).ret
        = FILELIMIT_START ∧
      (filename_extract_limits (name ++ "!".toList ++ x ++ "-".toList) st en).start
        = (decVal x : Int) ∧
      (filename_extract_limits (name ++ "!".toList ++ x ++ "-".toList) st en).end_ = en := by
  have e : name ++ "!".toList ++ x ++ "-".toList = name ++ '!' :: (x ++ ['-']) := by simp
  rw [e, extract_start name x st en hn hx0 hx hxfit]
  exact ⟨rfl, rfl, rfl⟩

/-- The filename `f!10-` gives `FILELIMIT_START` and start 10, with `*end` kept. -/
theorem filename_extract_limits_start_only_witness :
    (filename_extract_limits ("f".toList ++ "!".toList ++ "10".toList ++ "-".toList) 7 8).ret
        = FILELIMIT_START ∧
      (filename_extract_limits ("f".toList ++ "!".toList ++ "10".toList ++ "-".toList) 7 8).start
        = (decVal "10".toList : Int) ∧
      (filename_extract_limits ("f".toList ++ "!".toList ++ "10".toList ++ "-".toList) 7 8).end_
        = 8 :=
  filename_extract_limits_start_only "f".toList "10".toList 7 8 (by decide) (by decide)
    (by decide) (by decide)

/-- Claim C4, refuted as stated: on `f!-20` the call returns only
`FILELIMIT_END` and yet the filename is cut down to `f`; on `f!10-` it returns
only `FILELIMIT_START` and the filename is cut down to `f` as well. -/
theorem filename_extract_limits_single_modifies :
    (filename_extract_limits "f!-20".toList 7 8).ret = FILELIMIT_END ∧
      (filename_extract_limits "f!-20".toList 7 8).filename ≠ "f!-20".toList ∧
      (filename_extract_limits "f!10-".toList 7 8).ret = FILELIMIT_START ∧
      (filename_extract_limits "f!10-".toList 7 8).filename ≠ "f!10-".toList := by
  decide

/-- Claim C4, amended: on the START-only form `name!x-` and on the END-only
form `name!-y` (`name` non-empty, the digits non-empty and fitting in
`curl_off_t`) the call returns only `FILELIMIT_START`, respectively only
`FILELIMIT_END`, and truncates the filename at the `!`, leaving `name`, as it
does for the BOTH form: the test `have_minus && flags_ret` holds in all three
forms. -/
theorem filename_extract_limits_single_truncates (name d : List Char) (st en : Int)
    (hn : name ≠ [])
    (hd0 : d ≠ []) (hd : ∀ c ∈ d, c.isDigit = true) (hfit : decVal d ≤ CURL_OFF_T_MAX) :
    ((filename_extract_limits (name ++ "!".toList ++ d ++ "-".toList) st en).ret
        = FILELIMIT_START ∧
      (filename_extract_limits (name ++ "!".toList ++ d ++ "-".toList) st en).filename
        = name) ∧
    ((filename_extract_limits (name ++ "!-".toList ++ d) st en).ret = FILELIMIT_END ∧
      (filename_extract_limits (name ++ "!-".toList ++ d) st en).filename = name) := by
  have e1 : name ++ "!".toList ++ d ++ "-".toList = name ++ '!' :: (d ++ ['-']) := by simp
  have e2 : name ++ "!-".toList ++ d = name ++ '!' :: '-' :: d := by simp
  rw [e1, e2, extract_start name d st en hn hd0 hd hfit,
    extract_end name d st en hn hd0 hd hfit]
  exact ⟨⟨rfl, rfl⟩, ⟨rfl, rfl⟩⟩

/-- The filenames `f!20-` and `f!-20` are both cut down to `f`. -/
theorem filename_extract_limits_single_truncates_witness :
    ((filename_extract_limits ("f".toList ++ "!".toList ++ "20".toList ++ "-".toList) 7 8).ret
        = FILELIMIT_START ∧
      (filename_extract_limits ("f".toList ++ "!".toList ++ "20".toList ++ "-".toList)
        7 8).filename = "f".toList) ∧
    ((filename_extract_limits ("f".toList ++ "!-".toList ++ "20".toList) 7 8).ret
        = FILELIMIT_END ∧
      (filename_extract_limits ("f".toList ++ "!-".toList ++ "20".toList) 7 8).filename
        = "f".toList) :=
  filename_extract_limits_single_truncates "f".toList "20".toList 7 8 (by decide) (by decide)
    (by decide) (by decide)

/-- Claim C5, at the failing input: the filename `f-20` holds no `!`, and the
call returns `FILELIMIT_END` with 20 stored in `*end` instead of `0`; the
filename is left as it was. -/
theorem filename_extract_limits_no_bang_returns_end :
    '!' ∉ "f-20".toList ∧
      filename_extract_limits "f-20".toList 7 8 = ⟨FILELIMIT_END, 7, 20, "f-20".toList⟩ := by
  decide

/-- Claim C6, at the failing input: on `f!a-20` the call returns `0` (`a` is
not a number) after it has stored 20 in `*end`, which held 8 before the call. -/
theorem filename_extract_limits_zero_writes_end :
    filename_extract_limits "f!a-20".toList 7 8 = ⟨0, 7, 20, "f!a-20".toList⟩ := by
  decide

/-- Claim C7: when, scanning back from the last character over the offsets
from 1 on, a character `c` outside the set of digits, `-` and `!` is met and no
`!` stands after it (the filename is `pre ++ c :: suf`, `pre` non-empty, `suf`
free of `!`), the call returns `0`. The filename being a C string, `c` is not
NUL. -/
theorem filename_extract_limits_rejects_other (pre : List Char) (c : Char) (suf : List Char)
    (st en : Int) (hpre : pre ≠ []) (hc : c ∉ "0123456789-!".toList) (hnul : c ≠ '\x00')
    (hsuf : '!' ∉ suf) :
    (filename_extract_limits (pre ++ c :: suf) st en).ret = 0 :=
  extract_ret_zero_at pre c suf st en hpre hsuf
    (fun hm fl st en => loop_step_reject pre c suf hpre hc hnul hm fl st en)

/-- The filename `f!abc` is rejected: `c` is met before any `!`. -/
theorem filename_extract_limits_rejects_other_witness :
    (filename_extract_limits ("f!ab".toList ++ 'c' :: []) 7 8).ret = 0 :=
  filename_extract_limits_rejects_other "f!ab".toList 'c' [] 7 8 (by decide) (by decide)
    (by decide) (by decide)

/-- Claim C8: when the scanned part of the filename holds two or more `-`, the
call returns `0`. The filename is `pre ++ mid` with `pre` non-empty and `mid`
free of `!`: `mid` is the scanned part when `pre` ends with the last `!` found
at an offset of at least 1, or is the first character when there is none. -/
theorem filename_extract_limits_two_minus (pre mid : List Char) (st en : Int)
    (hpre : pre ≠ []) (hmid : '!' ∉ mid) (hcount : 2 ≤ mid.count '-') :
    (filename_extract_limits (pre ++ mid) st en).ret = 0 := by
  obtain ⟨m1, m2, rfl, hm2⟩ := exists_minus_before_minus mid hcount
  have e : pre ++ (m1 ++ '-' :: m2) = (pre ++ m1) ++ '-' :: m2 := by simp
  rw [e]
  refine extract_ret_zero_at (pre ++ m1) '-' m2 st en (by simp [hpre]) ?_
    (fun hm fl st en => loop_step_second_minus (pre ++ m1) m2 (by simp [hpre]) hm2 hm fl st en)
  intro hbang
  exact hmid (by simp [hbang])

/-- The filename `f!1-2-3`, with the scanned part `1-2-3` after `f!`, is
rejected. -/
theorem filename_extract_limits_two_minus_witness :
    (filename_extract_limits ("f!".toList ++ "1-2-3".toList) 7 8).ret = 0 :=
  filename_extract_limits_two_minus "f!".toList "1-2-3".toList 7 8 (by decide) (by decide)
    (by decide)

/-- Claim C9: on a filename `name!x-y`, with `name` non-empty and `x`, `y`
non-empty digit strings, the call returns `0` when the value of `x` or the
value of `y` exceeds the largest `curl_off_t`. -/
theorem filename_extract_limits_overflow (name x y : List Char) (st en : Int)
    (hn : name ≠ [])
    (hx0 : x ≠ []) (hx : ∀ c ∈ x, c.isDigit = true)
    (hy0 : y ≠ []) (hy : ∀ c ∈ y, c.isDigit = true)
    (hbig : CURL_OFF_T_MAX < decVal x ∨ CURL_OFF_T_MAX < decVal y) :
    (filename_extract_limits (name ++ "!".toList ++ x ++ "-".toList ++ y) st en).ret = 0 := by
  have _ := hx0
  have e : name ++ "!".toList ++ x ++ "-".toList ++ y = name ++ '!' :: (x ++ '-' :: y) := by
    simp
  rw [e]
  exact extract_overflow name x y st en hn hx hy0 hy hbig

/-- The start `9223372036854775808`, one above the largest `curl_off_t`, makes
the call on `f!9223372036854775808-1` return `0`. -/
theorem filename_extract_limits_overflow_witness :
    CURL_OFF_T_MAX < decVal "9223372036854775808".toList ∧
      (filename_extract_limits ("f".toList ++ "!".toList ++ "9223372036854775808".toList ++
        "-".toList ++ "1".toList) 7 8).ret = 0 :=
  ⟨by decide, filename_extract_limits_overflow "f".toList "9223372036854775808".toList
    "1".toList 7 8 (by decide) (by decide) (by decide) (by decide) (by decide)
    (Or.inl (by decide))⟩

/-! ## The claims on `file2string` -/

/-- Claim C10: on a stream whose indicators are clear, holding the bytes `B`
from its position on, `file2string` without a range (`filelimit` 0) returns
`PARAM_OK` and hands back `B` with every CR, LF and NUL byte deleted and the
other bytes kept in their order, as long as that content stays under the
capacity. -/
theorem file2string_no_range_strips (MAX_FILE2MEMORY : Nat) (file : FILE) (start end_ : Int)
    (herr : file.err = false) (heof : file.eof = false)
    (hcap : ((file.data.drop file.pos).filter (fun b => !ISCRLF b)).length < MAX_FILE2MEMORY) :
    file2string MAX_FILE2MEMORY file 0 start end_ =
      some ⟨PARAM_OK, some ((file.data.drop file.pos).filter (fun b => !ISCRLF b))⟩ := by
  have h := file2string_loop_no_range MAX_FILE2MEMORY (file.data.length + 1) file 0 []
    herr heof (by omega) (by simp only [List.length_nil]; omega)
  simp only [file2string, FILELIMIT_START, FILELIMIT_END]
  simpa using h

/-- The bytes `A CR LF B NUL C` are handed back as `A B C`. -/
theorem file2string_no_range_strips_witness :
    file2string 100 ⟨[65, 13, 10, 66, 0, 67], 0, false, false⟩ 0 0 0 =
      some ⟨PARAM_OK, some ((([65, 13, 10, 66, 0, 67] : List Nat).drop 0).filter
        (fun b => !ISCRLF b))⟩ :=
  file2string_no_range_strips 100 ⟨[65, 13, 10, 66, 0, 67], 0, false, false⟩ 0 0 rfl rfl
    (by decide)

/-! ## The read loop of `file2memory` -/

theorem size_t_of_nat (n : Nat) (h : n < 2 ^ 64) : size_t (n : Int) = n := by
  unfold size_t
  have : ((n : Int) % 2 ^ 64) = (n : Int) := Int.emod_eq_of_lt (by omega) (by exact_mod_cast h)
  rw [this]
  simp

/-- Without a range, on a stream whose indicators are clear, the read loop of
`file2memory` given more rounds than there are bytes left appends the bytes
left when they fit in the capacity, and returns `PARAM_NO_MEM` when they do
not. -/
theorem file2memory_loop_no_range (toobig : Nat) :
    ∀ (fuel : Nat) (file : FILE) (rangelen : Int) (dyn : List Nat),
      file.err = false → file.eof = false → file.data.length - file.pos < fuel →
      dyn.length ≤ toobig →
      file2memory_loop toobig fuel file false rangelen dyn =
        if dyn.length + (file.data.drop file.pos).length ≤ toobig then
          some ⟨PARAM_OK, some (dyn ++ file.data.drop file.pos).length,
            some (dyn ++ file.data.drop file.pos)⟩
        else some ⟨PARAM_NO_MEM, none, none⟩ := by
  intro fuel
  induction fuel with
  | zero => intro file rangelen dyn _ _ h; omega
  | succ fuel ih =>
    intro file rangelen dyn herr heof hfuel hdyn
    have hsz : size_t 4096 = 4096 := size_t_of_nat 4096 (by norm_num)
    have htd := List.take_append_drop 4096 (file.data.drop file.pos)
    have hlen : (file.data.drop file.pos).length =
        ((file.data.drop file.pos).take 4096).length +
          ((file.data.drop file.pos).drop 4096).length := by
      rw [← List.length_append, htd]
    rw [file2memory_loop]
    simp only [file2memory_elt_cnt, Bool.false_and, Bool.false_eq_true, if_false, hsz, fread,
      ferror, feof, herr, heof, Bool.false_or]
    by_cases hz : ((file.data.drop file.pos).take 4096).length = 0
    · have hnil : (file.data.drop file.pos).take 4096 = [] := List.length_eq_zero.mp hz
      have hall : file.data.drop file.pos = [] := by
        cases h : file.data.drop file.pos with
        | nil => rfl
        | cons x t => rw [h] at hnil; simp at hnil
      simp only [hz, ne_eq, not_true_eq_false, if_false, hall, List.append_nil,
        List.length_nil, Nat.add_zero, hdyn, if_true]
      simp
    · simp only [ne_eq, hz, not_false_eq_true, if_true, curlx_dyn_addn]
      by_cases hfit : dyn.length + ((file.data.drop file.pos).take 4096).length > toobig
      · rw [if_pos hfit, if_neg (by omega)]
      · rw [if_neg hfit]
        by_cases hshort : ((file.data.drop file.pos).take 4096).length < 4096
        · have hall : (file.data.drop file.pos).take 4096 = file.data.drop file.pos := by
            apply List.take_of_length_le
            rw [List.length_take] at hshort
            omega
          have hd : decide (((file.data.drop file.pos).take 4096).length < 4096) = true := by
            simpa using hshort
          simp only [hd, Bool.not_true, Bool.false_eq_true, if_false]
          rw [hall] at hfit ⊢
          rw [if_pos (by omega)]
        · have hfull : ((file.data.drop file.pos).take 4096).length = 4096 := by
            have := List.length_take_le 4096 (file.data.drop file.pos)
            omega
          have hge : 4096 ≤ file.data.length - file.pos := by
            rw [List.length_take, List.length_drop] at hfull
            omega
          have hd : decide (((file.data.drop file.pos).take 4096).length < 4096) = false := by
            simpa using hshort
          have hdrop : file.data.drop (file.pos + 4096) = (file.data.drop file.pos).drop 4096 := by
            rw [List.drop_drop, Nat.add_comm]
          simp only [hd, Bool.not_false, if_true, hfull]
          refine (ih _ _ _ rfl rfl ?_ ?_).trans ?_
          · show file.data.length - (file.pos + 4096) < fuel
            omega
          · show (dyn ++ _).length ≤ toobig
            rw [List.length_append]
            omega
          · show (if (dyn ++ _).length + (file.data.drop (file.pos + 4096)).length ≤ toobig
              then some (Memory.mk PARAM_OK
                (some ((dyn ++ _) ++ file.data.drop (file.pos + 4096)).length)
                (some ((dyn ++ _) ++ file.data.drop (file.pos + 4096))))
              else _) = _
            rw [hdrop, List.append_assoc, htd, List.length_append]
            have e : dyn.length + ((file.data.drop file.pos).take 4096).length +
                ((file.data.drop file.pos).drop 4096).length =
                dyn.length + (file.data.drop file.pos).length := by omega
            rw [e]

/-- With a range of `r` bytes left, on a stream whose indicators are clear,
the read loop of `file2memory` given more rounds than the range selects bytes
appends the next `r` bytes (or those left, when fewer) when they fit in the
capacity, and returns `PARAM_NO_MEM` when they do not. -/
theorem file2memory_loop_range (toobig : Nat) :
    ∀ (fuel : Nat) (file : FILE) (r : Nat) (dyn : List Nat),
      file.err = false → file.eof = false →
      ((file.data.drop file.pos).take r).length < fuel →
      dyn.length ≤ toobig →
      file2memory_loop toobig fuel file true (r : Int) dyn =
        if dyn.length + ((file.data.drop file.pos).take r).length ≤ toobig then
          some ⟨PARAM_OK, some (dyn ++ (file.data.drop file.pos).take r).length,
            some (dyn ++ (file.data.drop file.pos).take r)⟩
        else some ⟨PARAM_NO_MEM, none, none⟩ := by
  intro fuel
  induction fuel with
  | zero => intro file r dyn _ _ h; omega
  | succ fuel ih =>
    intro file r dyn herr heof hfuel hdyn
    rw [file2memory_loop]
    by_cases hr : r < 4096
    · -- the last round: the request is what is left of the range
      have hlt : ((r : Int) < 4096) := by exact_mod_cast hr
      have hsz : size_t (r : Int) = r := size_t_of_nat r (by omega)
      have hle : ((file.data.drop file.pos).take r).length ≤ r := List.length_take_le _ _
      simp only [file2memory_elt_cnt, Bool.true_and, hlt, decide_True, if_true, hsz, fread, ferror,
        feof, herr, heof,
        Bool.false_or, Bool.false_eq_true, if_false]
      by_cases hz : ((file.data.drop file.pos).take r).length = 0
      · have hnil : (file.data.drop file.pos).take r = [] := List.length_eq_zero.mp hz
        simp only [hz, ne_eq, not_true_eq_false, if_false, hnil, List.append_nil,
          List.length_nil, Nat.add_zero, hdyn, if_true]
        split_ifs with h1 h2
        · rfl
        · exfalso
          simp at h1 h2
          omega
        · rfl
      · simp only [ne_eq, hz, not_false_eq_true, if_true, curlx_dyn_addn]
        by_cases hfit : dyn.length + ((file.data.drop file.pos).take r).length > toobig
        · rw [if_pos hfit, if_neg (by omega)]
        · rw [if_neg hfit, if_pos (by omega)]
          by_cases hall : ((file.data.drop file.pos).take r).length < r
          · have hd : decide (((file.data.drop file.pos).take r).length < r) = true := by
              simpa using hall
            have hnot : ¬ ((r : Int) - (((file.data.drop file.pos).take r).length : Int) ≤ 0) := by
              omega
            simp only [hd, hnot, decide_False, Bool.not_true, Bool.false_eq_true, if_false]
          · have hnot : ((r : Int) - (((file.data.drop file.pos).take r).length : Int) ≤ 0) := by
              omega
            simp only [hnot, decide_True, if_true]
    · -- a full round of 4096 bytes is asked for
      have hlt : ¬ ((r : Int) < 4096) := by
        intro h
        exact hr (by exact_mod_cast h)
      have hsz : size_t 4096 = 4096 := size_t_of_nat 4096 (by norm_num)
      have htake : (file.data.drop file.pos).take r =
          (file.data.drop file.pos).take 4096 ++
            ((file.data.drop file.pos).drop 4096).take (r - 4096) := by
        have e : r = 4096 + (r - 4096) := by omega
        conv_lhs => rw [e, List.take_add]
      have hlen := congrArg List.length htake
      rw [List.length_append] at hlen
      simp only [file2memory_elt_cnt, Bool.true_and, hlt, decide_False, Bool.false_eq_true,
        if_false, hsz, fread,
        ferror, feof, herr, heof, Bool.false_or]
      by_cases hz : ((file.data.drop file.pos).take 4096).length = 0
      · have hnil : (file.data.drop file.pos).take 4096 = [] := List.length_eq_zero.mp hz
        have hall : file.data.drop file.pos = [] := by
          cases h : file.data.drop file.pos with
          | nil => rfl
          | cons x t => rw [h] at hnil; simp at hnil
        have hnot : ¬ ((r : Int) - ((0 : Nat) : Int) ≤ 0) := by omega
        simp only [hz, ne_eq, not_true_eq_false, if_false, hall, List.take_nil, List.append_nil,
          List.length_nil, Nat.add_zero, hdyn, if_true, hnot, decide_False,
          Bool.false_eq_true]
        simp
      · simp only [ne_eq, hz, not_false_eq_true, if_true, curlx_dyn_addn]
        by_cases hfit : dyn.length + ((file.data.drop file.pos).take 4096).length > toobig
        · rw [if_pos hfit, if_neg (by omega)]
        · rw [if_neg hfit]
          by_cases hshort : ((file.data.drop file.pos).take 4096).length < 4096
          · have h4 : (file.data.drop file.pos).take 4096 = file.data.drop file.pos := by
              apply List.take_of_length_le
              rw [List.length_take] at hshort
              omega
            have hrall : (file.data.drop file.pos).take r = file.data.drop file.pos := by
              apply List.take_of_length_le
              rw [List.length_take] at hshort
              omega
            have hd : decide (((file.data.drop file.pos).take 4096).length < 4096) = true := by
              simpa using hshort
            have hnot : ¬ ((r : Int) -
                (((file.data.drop file.pos).take 4096).length : Int) ≤ 0) := by omega
            simp only [hd, hnot, decide_False, Bool.not_true, Bool.false_eq_true, if_false]
            rw [hrall]
            rw [h4] at hfit ⊢
            rw [if_pos (by omega)]
          · have hfull : ((file.data.drop file.pos).take 4096).length = 4096 := by
              have := List.length_take_le 4096 (file.data.drop file.pos)
              omega
            have hd : decide (((file.data.drop file.pos).take 4096).length < 4096) = false := by
              simpa using hshort
            have hdrop : file.data.drop (file.pos + 4096) =
                (file.data.drop file.pos).drop 4096 := by
              rw [List.drop_drop, Nat.add_comm]
            have hcast : (r : Int) - ((4096 : Nat) : Int) = ((r - 4096 : Nat) : Int) := by omega
            by_cases hdone : r = 4096
            · have hnot : ((r : Int) - ((4096 : Nat) : Int) ≤ 0) := by omega
              simp only [hfull, hnot, decide_True, if_true]
              subst hdone
              rw [if_pos (by omega)]
            · have hnot : ¬ (((r - 4096 : Nat) : Int) ≤ 0) := by omega
              simp only [hd, Bool.not_false, if_true]
              simp only [hfull]
              rw [hcast]
              simp only [hnot, decide_False, Bool.false_eq_true, if_false]
              refine (ih _ (r - 4096) _ rfl rfl ?_ ?_).trans ?_
              · show ((file.data.drop (file.pos + 4096)).take (r - 4096)).length < fuel
                rw [hdrop]
                omega
              · show (dyn ++ _).length ≤ toobig
                rw [List.length_append]
                omega
              · show (if (dyn ++ _).length +
                    ((file.data.drop (file.pos + 4096)).take (r - 4096)).length ≤ toobig
                  then some (Memory.mk PARAM_OK
                    (some ((dyn ++ _) ++
                      (file.data.drop (file.pos + 4096)).take (r - 4096)).length)
                    (some ((dyn ++ _) ++ (file.data.drop (file.pos + 4096)).take (r - 4096))))
                  else _) = _
                rw [hdrop, List.append_assoc, ← htake, List.length_append, hfull, hlen, hfull]
                have e : dyn.length + 4096 +
                    (((file.data.drop file.pos).drop 4096).take (r - 4096)).length =
                    dyn.length + (4096 +
                      (((file.data.drop file.pos).drop 4096).take (r - 4096)).length) := by
                  omega
                rw [e]

/-! ## The strip loop in general: capacity, chunks and termination -/

/-- On a chunk of `nread` bytes the strip loop appends the bytes that are not
CR, LF or NUL when they fit in the capacity, and returns `PARAM_NO_MEM` when
they do not. -/
theorem file2string_strip_total (toobig : Nat) :
    ∀ (fuel : Nat) (ptr dyn : List Nat), ptr.length < fuel → dyn.length ≤ toobig →
      file2string_strip toobig fuel ptr ptr.length dyn =
        if dyn.length + (ptr.filter (fun b => !ISCRLF b)).length ≤ toobig then
          some (.ok (dyn ++ ptr.filter (fun b => !ISCRLF b)))
        else some (.error PARAM_NO_MEM) := by
  intro fuel
  induction fuel with
  | zero => intro ptr dyn h; omega
  | succ fuel ih =>
    intro ptr dyn hlen hdyn
    by_cases hfits : dyn.length + (ptr.filter (fun b => !ISCRLF b)).length ≤ toobig
    · rw [if_pos hfits]
      exact file2string_strip_eq toobig (fuel + 1) ptr dyn hlen hfits
    · rw [if_neg hfits]
      have hnil : ptr ≠ [] := by
        rintro rfl
        simp at hfits
        omega
      have hpos : ptr.length ≠ 0 := fun h0 => hnil (List.length_eq_zero.mp h0)
      have hsplit := filter_eq_takeWhile_append ptr
      have hsum := length_takeWhile_add_dropWhile (fun b => ISCRLF b == false) ptr
      have hrest : ptr.length - (ptr.takeWhile (fun b => ISCRLF b == false)).length =
          (ptr.dropWhile (fun b => ISCRLF b == false)).length := by omega
      rw [file2string_strip, if_neg hpos]
      simp only [memcrlf_eq, take_length_takeWhile, drop_length_takeWhile, hrest]
      by_cases hadd : dyn.length + (ptr.takeWhile (fun b => ISCRLF b == false)).length > toobig
      · simp only [curlx_dyn_addn, if_pos hadd]
      · simp only [curlx_dyn_addn, if_neg hadd]
        have hz : (ptr.dropWhile (fun b => ISCRLF b == false)).length ≠ 0 := by
          intro hz
          have hd : ptr.dropWhile (fun b => ISCRLF b == false) = [] := List.length_eq_zero.mp hz
          rw [hsplit, hd] at hfits
          simp only [List.filter_nil, List.append_nil] at hfits
          omega
        have hsum2 := length_takeWhile_add_dropWhile (fun b => ISCRLF b == true)
          (ptr.dropWhile (fun b => ISCRLF b == false))
        have hrest2 : (ptr.dropWhile (fun b => ISCRLF b == false)).length -
            ((ptr.dropWhile (fun b => ISCRLF b == false)).takeWhile
              (fun b => ISCRLF b == true)).length =
            ((ptr.dropWhile (fun b => ISCRLF b == false)).dropWhile
              (fun b => ISCRLF b == true)).length := by omega
        have hlt := length_dropWhile_dropWhile_lt ptr hnil
        have hf := filter_dropWhile_crlf (ptr.dropWhile (fun b => ISCRLF b == false))
        simp only [ne_eq, hz, not_false_eq_true, if_true, memcrlf_eq, drop_length_takeWhile,
          hrest2]
        rw [ih _ _ (by omega) (by rw [List.length_append]; omega)]
        rw [if_neg]
        rw [hf, List.length_append]
        rw [hsplit, List.length_append] at hfits
        omega

/-- The rounds over a list of chunks append the bytes of all chunks that are
not CR, LF or NUL when they fit in the capacity, and return `PARAM_NO_MEM` when
they do not: the result depends on the concatenation of the chunks only. -/
theorem file2string_chunks_eq (toobig : Nat) :
    ∀ (chunks : List (List Nat)) (dyn : List Nat), dyn.length ≤ toobig →
      file2string_chunks toobig chunks dyn =
        if dyn.length + (chunks.flatten.filter (fun b => !ISCRLF b)).length ≤ toobig then
          some (.ok (dyn ++ chunks.flatten.filter (fun b => !ISCRLF b)))
        else some (.error PARAM_NO_MEM) := by
  intro chunks
  induction chunks with
  | nil =>
    intro dyn hdyn
    simp [file2string_chunks, hdyn]
  | cons buffer rest ih =>
    intro dyn hdyn
    rw [file2string_chunks, file2string_strip_total toobig _ buffer dyn (by omega) hdyn]
    simp only [List.flatten_cons, List.filter_append, List.length_append]
    by_cases h1 : dyn.length + (buffer.filter (fun b => !ISCRLF b)).length ≤ toobig
    · rw [if_pos h1]
      simp only []
      rw [ih _ (by rw [List.length_append]; exact h1)]
      simp only [List.length_append, List.append_assoc, Nat.add_assoc]
    · rw [if_neg h1, if_neg (by omega)]

theorem memcrlf_loop_bounds (orig : List Nat) (countcrlf : Bool) (total : Nat) :
    ∀ (max off : Nat), off + max = total →
      off ≤ memcrlf_loop orig countcrlf total max off ∧
        memcrlf_loop orig countcrlf total max off ≤ total := by
  intro max
  induction max with
  | zero =>
    intro off h
    simp only [memcrlf_loop]
    omega
  | succ max ih =>
    intro off h
    simp only [memcrlf_loop]
    split_ifs
    · omega
    · have := ih (off + 1) (by omega)
      omega

/-- The run length returned by `memcrlf` is at most `max`. -/
theorem memcrlf_le (ptr : List Nat) (countcrlf : Bool) (max : Nat) :
    memcrlf ptr countcrlf max ≤ max :=
  (memcrlf_loop_bounds ptr countcrlf max max 0 (by omega)).2

/-- When the run of non-terminators at `ptr` is empty and the region is not,
the run of terminators at `ptr` has at least one byte. -/
theorem memcrlf_true_pos (ptr : List Nat) (nread : Nat) (hn : nread ≠ 0)
    (h0 : memcrlf ptr false nread = 0) : 1 ≤ memcrlf ptr true nread := by
  obtain ⟨n, rfl⟩ : ∃ n, nread = n + 1 := ⟨nread - 1, by omega⟩
  have hb := memcrlf_loop_bounds ptr false (n + 1) n (0 + 1) (by omega)
  have hb2 := memcrlf_loop_bounds ptr true (n + 1) n (0 + 1) (by omega)
  unfold memcrlf at h0 ⊢
  simp only [memcrlf_loop] at h0 ⊢
  cases hc : ISCRLF (ptr.getD 0 0)
  · rw [hc] at h0
    simp only [Bool.xor_false, Bool.false_eq_true, if_false] at h0
    omega
  · simp only [Bool.xor_self, Bool.false_eq_true, if_false]
    omega

/-- One round of the strip loop leaves fewer bytes than it found. -/
theorem strip_round_decreases (ptr : List Nat) (nread : Nat) (hn : nread ≠ 0) :
    nread - memcrlf ptr false nread -
        memcrlf (ptr.drop (memcrlf ptr false nread)) true (nread - memcrlf ptr false nread)
      < nread := by
  by_cases h0 : memcrlf ptr false nread = 0
  · have h1 := memcrlf_true_pos ptr nread hn h0
    rw [h0, List.drop_zero, Nat.sub_zero]
    omega
  · omega

/-- The strip loop given more rounds than the chunk has bytes never hits the
bound on its rounds. -/
theorem file2string_strip_terminates (toobig : Nat) :
    ∀ (fuel : Nat) (ptr : List Nat) (nread : Nat) (dyn : List Nat), nread < fuel →
      file2string_strip toobig fuel ptr nread dyn ≠ none := by
  intro fuel
  induction fuel with
  | zero => intro ptr nread dyn h; omega
  | succ fuel ih =>
    intro ptr nread dyn hlt
    rw [file2string_strip]
    by_cases hn : nread = 0
    · simp [hn]
    · rw [if_neg hn]
      have hle := memcrlf_le ptr false nread
      have hdec := strip_round_decreases ptr nread hn
      dsimp only
      split
      · simp
      · split_ifs with h1
        · apply ih
          omega
        · apply ih
          omega

/-! ## The walk of `textmode_fseek` -/

/-- The walk from the position `stream.pos`, the counter `pos` being equal to
it: it stops at once when the target is not ahead, stops on the target when
the target is in the file, and otherwise stops at the end of the file with the
end-of-file indicator set. -/
theorem textmode_fseek_loop_eq :
    ∀ (fuel : Nat) (stream : FILE) (newpos : Int), stream.pos ≤ stream.data.length →
      stream.data.length - stream.pos < fuel →
      textmode_fseek_loop fuel stream (stream.pos : Int) newpos =
        some (if newpos ≤ (stream.pos : Int) then ((stream.pos : Int), stream)
          else if newpos ≤ (stream.data.length : Int) then
            (newpos, { stream with pos := newpos.toNat })
          else ((stream.data.length : Int),
            { stream with pos := stream.data.length, eof := true })) := by
  intro fuel
  induction fuel with
  | zero => intro stream newpos _ h; omega
  | succ fuel ih =>
    intro stream newpos hle hfuel
    rw [textmode_fseek_loop]
    by_cases hlt : (stream.pos : Int) < newpos
    · rw [if_pos hlt, if_neg (by omega)]
      cases hd : stream.data.drop stream.pos with
      | nil =>
        have hlen : stream.data.length ≤ stream.pos := List.drop_eq_nil_iff.mp hd
        have hpos : stream.pos = stream.data.length := by omega
        simp only [fgetc, hd]
        rw [if_neg (by omega), ← hpos]
      | cons b t =>
        have hlen : stream.pos < stream.data.length := by
          by_contra hcon
          have : stream.data.drop stream.pos = [] := List.drop_eq_nil_of_le (by omega)
          rw [this] at hd
          exact List.noConfusion hd
        simp only [fgetc, hd]
        have hcast : (stream.pos : Int) + 1 = ((stream.pos + 1 : Nat) : Int) := by omega
        rw [hcast]
        refine (ih { stream with pos := stream.pos + 1 } newpos ?_ ?_).trans ?_
        · show stream.pos + 1 ≤ stream.data.length
          omega
        · show stream.data.length - (stream.pos + 1) < fuel
          omega
        · show some (if newpos ≤ ((stream.pos + 1 : Nat) : Int) then
              (((stream.pos + 1 : Nat) : Int), { stream with pos := stream.pos + 1 })
            else if newpos ≤ (stream.data.length : Int) then
              (newpos, { stream with pos := newpos.toNat })
            else ((stream.data.length : Int),
              { stream with pos := stream.data.length, eof := true })) = _
          by_cases h1 : newpos ≤ ((stream.pos + 1 : Nat) : Int)
          · have hnp : newpos = ((stream.pos + 1 : Nat) : Int) := by omega
            rw [if_pos h1, if_pos (by omega), hnp]
            simp
          · rw [if_neg h1]
    · rw [if_neg hlt, if_pos (by omega)]

/-- The part of `textmode_fseek` after the two seeks: the walk from position 0
to the target `newpos` on a file of `L` bytes. -/
theorem textmode_fseek_walk (stream : FILE) (newpos : Int) (hpos : stream.pos = 0) :
    textmode_fseek_loop (stream.data.length + 1) stream 0 newpos =
      some (if newpos ≤ 0 then (0, stream)
        else if newpos ≤ (stream.data.length : Int) then
          (newpos, { stream with pos := newpos.toNat })
        else ((stream.data.length : Int),
          { stream with pos := stream.data.length, eof := true })) := by
  have h := textmode_fseek_loop_eq (stream.data.length + 1) stream newpos (by omega) (by omega)
  rw [hpos] at h
  simpa using h

/-- The byte that the next `fgetc` delivers is the one at the position of the
stream, and `EOF` when there is none. -/
theorem fgetc_fst (stream : FILE) : (fgetc stream).1 = stream.data[stream.pos]? := by
  unfold fgetc
  cases hd : stream.data.drop stream.pos with
  | nil =>
    have : stream.data.length ≤ stream.pos := List.drop_eq_nil_iff.mp hd
    simp [List.getElem?_eq_none this]
  | cons b t =>
    have h := List.head?_drop stream.data stream.pos
    rw [hd] at h
    simpa using h

/-- Without a range, `file2string` on a freshly opened stream holding `B` hands
back `B` without its CR, LF and NUL bytes, when these fit under the capacity. -/
theorem file2string_fresh_stream (cap : Nat) (B : List Nat) (start end_ : Int)
    (hcap : (B.filter (fun b => !ISCRLF b)).length < cap) :
    file2string cap ⟨B, 0, false, false⟩ 0 start end_ =
      some ⟨PARAM_OK, some (B.filter (fun b => !ISCRLF b))⟩ := by
  have h := file2string_loop_no_range cap (B.length + 1) ⟨B, 0, false, false⟩ 0 []
    rfl rfl (by simp) (by simp only [List.length_nil, List.drop_zero]; omega)
  simp only [file2string, FILELIMIT_START, FILELIMIT_END]
  simpa using h

/-! ## The claims on the strip transform -/

/-- Claim C11: the output of the chunk loop of `file2string` does not depend on
where the bytes are cut into chunks: two lists of chunks with the same
concatenation, each chunk going through the `memcrlf` strip loop, give the same
result, and the loop does return one. -/
theorem file2string_chunk_boundary_invariance (toobig : Nat) (chunks1 chunks2 : List (List Nat))
    (h : chunks1.flatten = chunks2.flatten) :
    file2string_chunks toobig chunks1 [] = file2string_chunks toobig chunks2 [] ∧
      file2string_chunks toobig chunks1 [] ≠ none := by
  rw [file2string_chunks_eq toobig chunks1 [] (Nat.zero_le _),
    file2string_chunks_eq toobig chunks2 [] (Nat.zero_le _), h]
  refine ⟨rfl, ?_⟩
  split_ifs <;> simp

/-- The run CR LF cut by a chunk boundary, or ending at one, gives the same
output as the run inside one chunk. -/
theorem file2string_chunk_boundary_invariance_witness :
    (file2string_chunks 100 [[65, 13], [10, 66]] [] =
        file2string_chunks 100 [[65, 13, 10, 66]] [] ∧
      file2string_chunks 100 [[65, 13], [10, 66]] [] ≠ none) ∧
    (file2string_chunks 100 [[65, 13, 10], [66]] [] =
        file2string_chunks 100 [[65, 13, 10, 66]] [] ∧
      file2string_chunks 100 [[65, 13, 10], [66]] [] ≠ none) :=
  ⟨file2string_chunk_boundary_invariance 100 [[65, 13], [10, 66]] [[65, 13, 10, 66]]
      (by decide),
    file2string_chunk_boundary_invariance 100 [[65, 13, 10], [66]] [[65, 13, 10, 66]]
      (by decide)⟩

/-- Claim C12: the strip transform of `file2string` is idempotent: the output
`out` of a load of the bytes `B` without a range, loaded again, is handed back
as it is. -/
theorem file2string_strip_idempotent (cap : Nat) (B : List Nat) (start end_ : Int)
    (hcap : (B.filter (fun b => !ISCRLF b)).length < cap) :
    ∃ out, file2string cap ⟨B, 0, false, false⟩ 0 start end_ = some ⟨PARAM_OK, some out⟩ ∧
      file2string cap ⟨out, 0, false, false⟩ 0 start end_ = some ⟨PARAM_OK, some out⟩ := by
  refine ⟨B.filter (fun b => !ISCRLF b), file2string_fresh_stream cap B start end_ hcap, ?_⟩
  have hff : (B.filter (fun b => !ISCRLF b)).filter (fun b => !ISCRLF b) =
      B.filter (fun b => !ISCRLF b) := by
    rw [List.filter_filter]
    simp
  have h := file2string_fresh_stream cap (B.filter (fun b => !ISCRLF b)) start end_
    (by rw [hff]; exact hcap)
  rw [hff] at h
  exact h

/-- The bytes `A CR LF B NUL C` are stripped to `A B C`, and `A B C` to itself. -/
theorem file2string_strip_idempotent_witness :
    ∃ out, file2string 100 ⟨[65, 13, 10, 66, 0, 67], 0, false, false⟩ 0 0 0
        = some ⟨PARAM_OK, some out⟩ ∧
      file2string 100 ⟨out, 0, false, false⟩ 0 0 0 = some ⟨PARAM_OK, some out⟩ :=
  file2string_strip_idempotent 100 [65, 13, 10, 66, 0, 67] 0 0 (by decide)

/-! ## The claims on `file2memory` -/

/-- The seek `FSEEK(file, O, SEEK_SET)` to a target that is not negative. -/
theorem FSEEK_set (file : FILE) (n : Nat) :
    FSEEK file (n : Int) SEEK_SET = (0, { file with pos := n, eof := false }) := by
  simp [FSEEK, SEEK_SET]

/-- The seek `FSEEK(file, -end, SEEK_END)` with `end` at most the size. -/
theorem FSEEK_end (file : FILE) (n : Nat) (hn : n ≤ file.data.length) :
    FSEEK file (-(n : Int)) SEEK_END =
      (0, { file with pos := file.data.length - n, eof := false }) := by
  have h1 : ¬ ((file.data.length : Int) + -(n : Int) < 0) := by omega
  have h2 : ((file.data.length : Int) + -(n : Int)).toNat = file.data.length - n := by omega
  simp [FSEEK, SEEK_SET, SEEK_END, h1, h2]

/-- Claim C13: on a stream whose indicators are clear, holding `N` bytes `B`
from its position on, with `N` below the capacity, `file2memory` without a
range (`filelimit` 0) returns `PARAM_OK` with `*size = N` and the buffer `B`. -/
theorem file2memory_no_range_roundtrip (MAX_FILE2MEMORY : Nat) (file : FILE)
    (start end_ : Int) (herr : file.err = false) (heof : file.eof = false)
    (hcap : (file.data.drop file.pos).length < MAX_FILE2MEMORY) :
    file2memory MAX_FILE2MEMORY file 0 start end_ =
      some ⟨PARAM_OK, some (file.data.drop file.pos).length, some (file.data.drop file.pos)⟩ := by
  have h := file2memory_loop_no_range MAX_FILE2MEMORY (file.data.length + 1) file 0 []
    herr heof (by omega) (Nat.zero_le _)
  rw [if_pos (by simp only [List.length_nil]; omega)] at h
  simp only [file2memory, FILELIMIT_START, FILELIMIT_END]
  simpa using h

/-- A stream of 5 bytes is handed back whole, and so is the empty stream. -/
theorem file2memory_no_range_roundtrip_witness :
    file2memory 100 ⟨[65, 13, 10, 0, 66], 0, false, false⟩ 0 0 0 =
        some ⟨PARAM_OK, some (([65, 13, 10, 0, 66] : List Nat).drop 0).length,
          some (([65, 13, 10, 0, 66] : List Nat).drop 0)⟩ ∧
      file2memory 100 ⟨[], 0, false, false⟩ 0 0 0 =
        some ⟨PARAM_OK, some (([] : List Nat).drop 0).length, some (([] : List Nat).drop 0)⟩ :=
  ⟨file2memory_no_range_roundtrip 100 ⟨[65, 13, 10, 0, 66], 0, false, false⟩ 0 0 rfl rfl
      (by decide),
    file2memory_no_range_roundtrip 100 ⟨[], 0, false, false⟩ 0 0 rfl rfl (by decide)⟩

/-- Claim C14: on a stream of `N` bytes `B` without a read error, for
`0 <= start <= end < N` with the range length `end - start + 1` under the
capacity, `file2memory` with `FILELIMIT_START | FILELIMIT_END` returns
`PARAM_OK` with `*size = end - start + 1` and the buffer `B[start .. end]`. -/
theorem file2memory_both_range (MAX_FILE2MEMORY : Nat) (file : FILE) (start end_ : Int)
    (herr : file.err = false) (h0 : 0 ≤ start) (hse : start ≤ end_)
    (hend : end_ < (file.data.length : Int))
    (hcap : end_ - start + 1 < (MAX_FILE2MEMORY : Int)) :
    file2memory MAX_FILE2MEMORY file (FILELIMIT_START ||| FILELIMIT_END) start end_ =
      some ⟨PARAM_OK, some (end_ - start + 1).toNat,
        some ((file.data.drop start.toNat).take (end_ - start + 1).toNat)⟩ := by
  obtain ⟨s, rfl⟩ : ∃ s : Nat, start = (s : Int) := ⟨start.toNat, by omega⟩
  obtain ⟨r, hr⟩ : ∃ r : Nat, end_ - (s : Int) + 1 = (r : Int) :=
    ⟨(end_ - (s : Int) + 1).toNat, by omega⟩
  have hlen : ((file.data.drop s).take r).length = r := by
    rw [List.length_take, List.length_drop]
    omega
  have h := file2memory_loop_range MAX_FILE2MEMORY (file.data.length + 1)
    { file with pos := s, eof := false } r [] herr rfl
    (by show ((file.data.drop s).take r).length < _; rw [hlen]; omega) (Nat.zero_le _)
  rw [if_pos (by
    show ([] : List Nat).length + ((file.data.drop s).take r).length ≤ _
    rw [hlen, List.length_nil]; omega)] at h
  simp only [file2memory, FILELIMIT_START, FILELIMIT_END, FSEEK_set, hr]
  simp only [Int.toNat_ofNat, List.nil_append] at h ⊢
  rw [hlen] at h
  simpa using h

/-- The range 5..9 of a stream of 100 bytes gives the 5 bytes at the offsets 5
to 9. -/
theorem file2memory_both_range_witness :
    file2memory 1000 ⟨List.range 100, 0, false, false⟩ (FILELIMIT_START ||| FILELIMIT_END) 5 9 =
      some ⟨PARAM_OK, some ((9 : Int) - 5 + 1).toNat,
        some (((List.range 100).drop (5 : Int).toNat).take ((9 : Int) - 5 + 1).toNat)⟩ :=
  file2memory_both_range 1000 ⟨List.range 100, 0, false, false⟩ 5 9 rfl (by decide)
    (by decide) (by decide) (by decide)

/-- Claim C15, refuted as stated: with a capacity of 4 bytes, the last 5 bytes
of a stream of 5 bytes (`end = N = 5`) are not handed back: `file2memory`
returns `PARAM_NO_MEM`. -/
theorem file2memory_end_over_capacity :
    file2memory 4 ⟨[1, 2, 3, 4, 5], 0, false, false⟩ FILELIMIT_END 0 5 =
      some ⟨PARAM_NO_MEM, none, none⟩ := by
  decide

/-- Claim C15, amended: on a stream of `N` bytes `B` without a read error, for
`0 <= end <= N` with `end` below the capacity, `file2memory` with
`FILELIMIT_END` returns `PARAM_OK` with `*size = end` and the last `end` bytes
of `B`; for `end > N` it returns `PARAM_FSEEK_ERROR`. -/
theorem file2memory_end_range (MAX_FILE2MEMORY : Nat) (file : FILE) (start end_ : Int)
    (herr : file.err = false) (h0 : 0 ≤ end_) :
    (end_ ≤ (file.data.length : Int) → end_ < (MAX_FILE2MEMORY : Int) →
      file2memory MAX_FILE2MEMORY file FILELIMIT_END start end_ =
        some ⟨PARAM_OK, some end_.toNat,
          some (file.data.drop (file.data.length - end_.toNat))⟩) ∧
    ((file.data.length : Int) < end_ →
      file2memory MAX_FILE2MEMORY file FILELIMIT_END start end_ =
        some ⟨PARAM_FSEEK_ERROR, none, none⟩) := by
  obtain ⟨e, rfl⟩ : ∃ e : Nat, end_ = (e : Int) := ⟨end_.toNat, by omega⟩
  constructor
  · intro hle hcap
    have hle1 : e ≤ file.data.length := by omega
    have hlen : (file.data.drop (file.data.length - e)).length = e := by
      rw [List.length_drop]
      omega
    have h := file2memory_loop_no_range MAX_FILE2MEMORY (file.data.length + 1)
      { file with pos := file.data.length - e, eof := false } 0 [] herr rfl
      (by show file.data.length - (file.data.length - e) < _; omega) (Nat.zero_le _)
    rw [if_pos (by
      show ([] : List Nat).length + (file.data.drop (file.data.length - e)).length ≤ _
      rw [hlen, List.length_nil]; omega)] at h
    simp only [file2memory, FILELIMIT_START, FILELIMIT_END]
    simp only [Nat.reduceEqDiff, if_false, if_true, Nat.reduceOr]
    rw [FSEEK_end file e hle1]
    simp only [Int.toNat_ofNat, List.nil_append] at h ⊢
    rw [hlen] at h
    simpa using h
  · intro hgt
    have h1 : ((file.data.length : Int) + -(e : Int) < 0) := by omega
    simp [file2memory, FILELIMIT_START, FILELIMIT_END, FSEEK, SEEK_SET, SEEK_END, h1]

/-- The last 3 bytes of a stream of 5 bytes are handed back, and asking for the
last 6 bytes is a seek error. -/
theorem file2memory_end_range_witness :
    file2memory 100 ⟨[1, 2, 3, 4, 5], 0, false, false⟩ FILELIMIT_END 0 3 =
        some ⟨PARAM_OK, some (3 : Int).toNat,
          some (([1, 2, 3, 4, 5] : List Nat).drop
            (([1, 2, 3, 4, 5] : List Nat).length - (3 : Int).toNat))⟩ ∧
      file2memory 100 ⟨[1, 2, 3, 4, 5], 0, false, false⟩ FILELIMIT_END 0 6 =
        some ⟨PARAM_FSEEK_ERROR, none, none⟩ :=
  ⟨(file2memory_end_range 100 ⟨[1, 2, 3, 4, 5], 0, false, false⟩ 0 3 rfl (by decide)).1
      (by decide) (by decide),
    (file2memory_end_range 100 ⟨[1, 2, 3, 4, 5], 0, false, false⟩ 0 6 rfl (by decide)).2
      (by decide)⟩

/-- Claim C16, at the failing input: the filename `f!10-5` gives the BOTH
range `start = 10`, `end = 5`; the range length is then `-4`, and the element
count given to `fread` is `(size_t)(-4) = 18446744073709551612` in `file2string`
and in `file2memory` alike, far above the 4096 bytes of `buffer`. -/
theorem fread_count_exceeds_buffer :
    filename_extract_limits "f!10-5".toList 0 0 =
        ⟨FILELIMIT_START ||| FILELIMIT_END, 10, 5, "f".toList⟩ ∧
      file2string_elt_cnt true (5 - 10 + 1) = 18446744073709551612 ∧
      size_t (file2memory_elt_cnt true (5 - 10 + 1)) = 18446744073709551612 ∧
      4096 < file2string_elt_cnt true (5 - 10 + 1) := by
  decide

/-- The function `textmode_fseek` in closed form, for a target `t` that is the
offset itself (`SEEK_SET`) or the offset plus the size (`SEEK_END`). -/
theorem textmode_fseek_eq (stream : FILE) (offset : Int) (whence : Nat)
    (hw : whence = SEEK_SET ∨ whence = SEEK_END) (t : Int)
    (ht : t = if whence = SEEK_SET then offset else offset + (stream.data.length : Int)) :
    textmode_fseek stream offset whence =
      some (if t ≤ 0 then ((if t = 0 then 0 else -1), { stream with pos := 0, eof := false })
        else if t ≤ (stream.data.length : Int) then
          (0, { stream with pos := t.toNat, eof := false })
        else (-1, { stream with pos := stream.data.length, eof := true })) := by
  have hwalk := textmode_fseek_walk { stream with pos := 0, eof := false } t rfl
  rcases hw with rfl | rfl
  · simp only [if_true] at ht
    subst ht
    simp only [textmode_fseek, FSEEK, ftell, SEEK_SET, SEEK_END]
    simp only [Nat.reduceEqDiff, if_false, if_true, ne_eq, not_true_eq_false,
      Int.lt_irrefl, Int.toNat_zero]
    have hne : ¬ ((stream.pos : Int) = -1) := by omega
    rw [if_neg hne]
    simp only [Int.toNat_zero] at hwalk ⊢
    rw [hwalk]
    by_cases h1 : t ≤ 0
    · by_cases h2 : t = 0
      · simp [h2]
      · have : ¬ ((0 : Int) = t) := fun h => h2 h.symm
        simp [h1, h2, this]
    · by_cases h2 : t ≤ (stream.data.length : Int)
      · simp [h1, h2]
      · have : ¬ ((stream.data.length : Int) = t) := by omega
        simp [h1, h2, this]
  · have hse : ¬ (SEEK_END = SEEK_SET) := by decide
    rw [if_neg hse] at ht
    subst ht
    have e1 : FSEEK stream 0 SEEK_END =
        (0, { stream with pos := stream.data.length, eof := false }) := by
      simp [FSEEK, SEEK_SET, SEEK_END]
    have e2 : ∀ s : FILE, FSEEK s 0 SEEK_SET = (0, { s with pos := 0, eof := false }) := by
      intro s
      simp [FSEEK, SEEK_SET]
    have hne : ¬ ((stream.data.length : Int) = -1) := by omega
    simp only [textmode_fseek, if_true, e1, e2, ftell, ne_eq, not_true_eq_false, if_false, hne,
      hse]
    simp only [Int.toNat_zero] at hwalk ⊢
    rw [hwalk]
    by_cases h1 : offset + (stream.data.length : Int) ≤ 0
    · by_cases h2 : offset + (stream.data.length : Int) = 0
      · simp [h2]
      · have : ¬ ((0 : Int) = offset + (stream.data.length : Int)) := fun h => h2 h.symm
        simp [h1, h2, this]
    · by_cases h2 : offset + (stream.data.length : Int) ≤ (stream.data.length : Int)
      · simp [h1, h2]
      · have : ¬ ((stream.data.length : Int) = offset + (stream.data.length : Int)) := by omega
        simp [h1, h2, this]

/-- Claim C19, at the failing inputs: `str2unummax` on `"100"` with `max = 10`
returns `PARAM_NUMBER_TOO_LARGE` after it has stored 100 in `*val`, which held
7 before the call; on `"-5"` it returns `PARAM_NEGATIVE_NUMERIC` after it has
stored `-5`. -/
theorem str2unummax_writes_on_error :
    str2unummax 7 (some "100".toList) 10 = (PARAM_NUMBER_TOO_LARGE, 100) ∧
      str2unummax 7 (some "-5".toList) 10 = (PARAM_NEGATIVE_NUMERIC, -5) := by
  decide

/-- Claim C20: every round of the loop `while(nread)` of `file2string` leaves
fewer bytes than it found: both run lengths returned by `memcrlf` are at most
the bytes left, an empty run of non-terminators on a non-empty region is
followed by a run of terminators of at least one byte, and so the loop, given
as many rounds as the chunk has bytes and one more, returns. -/
theorem file2string_strip_loop_decreases (ptr : List Nat) (nread : Nat) (hn : nread ≠ 0) :
    memcrlf ptr false nread ≤ nread ∧
      memcrlf (ptr.drop (memcrlf ptr false nread)) true (nread - memcrlf ptr false nread)
        ≤ nread - memcrlf ptr false nread ∧
      (memcrlf ptr false nread = 0 → 1 ≤ memcrlf ptr true nread) ∧
      nread - memcrlf ptr false nread -
          memcrlf (ptr.drop (memcrlf ptr false nread)) true (nread - memcrlf ptr false nread)
        < nread ∧
      ∀ (toobig : Nat) (dyn : List Nat),
        file2string_strip toobig (nread + 1) ptr nread dyn ≠ none :=
  ⟨memcrlf_le ptr false nread, memcrlf_le _ true _, memcrlf_true_pos ptr nread hn,
    strip_round_decreases ptr nread hn,
    fun toobig dyn => file2string_strip_terminates toobig (nread + 1) ptr nread dyn (by omega)⟩

/-- On the chunk `CR LF A` the first run of non-terminators is empty and the run
of terminators has 2 bytes. -/
theorem file2string_strip_loop_decreases_witness :
    memcrlf [13, 10, 65] false 3 ≤ 3 ∧
      memcrlf (([13, 10, 65] : List Nat).drop (memcrlf [13, 10, 65] false 3)) true
          (3 - memcrlf [13, 10, 65] false 3)
        ≤ 3 - memcrlf [13, 10, 65] false 3 ∧
      (memcrlf [13, 10, 65] false 3 = 0 → 1 ≤ memcrlf [13, 10, 65] true 3) ∧
      3 - memcrlf [13, 10, 65] false 3 -
          memcrlf (([13, 10, 65] : List Nat).drop (memcrlf [13, 10, 65] false 3)) true
            (3 - memcrlf [13, 10, 65] false 3)
        < 3 ∧
      ∀ (toobig : Nat) (dyn : List Nat),
        file2string_strip toobig (3 + 1) [13, 10, 65] 3 dyn ≠ none :=
  file2string_strip_loop_decreases [13, 10, 65] 3 (by decide)

/-! ## The read loop of `file2string` with a range -/

theorem file2string_elt_cnt_range (r : Nat) :
    file2string_elt_cnt true (r : Int) = min r 4096 := by
  unfold file2string_elt_cnt
  by_cases hr : r < 4096
  · have hlt : ((r : Int) < 4096) := by exact_mod_cast hr
    simp only [Bool.true_and, hlt, decide_True, if_true]
    rw [size_t_of_nat r (by omega)]
    omega
  · have hlt : ¬ ((r : Int) < 4096) := by
      intro h
      exact hr (by exact_mod_cast h)
    simp only [Bool.true_and, hlt, decide_False, Bool.false_eq_true, if_false]
    omega

/-- With a range of `r` bytes left, on a stream whose indicators are clear,
the read loop of `file2string` given more rounds than the range selects bytes
appends the next `r` bytes (or those left, when fewer) without their CR, LF
and NUL bytes when the result fits in the capacity, and returns `PARAM_NO_MEM`
when it does not. -/
theorem file2string_loop_range (toobig : Nat) :
    ∀ (fuel : Nat) (file : FILE) (r : Nat) (dyn : List Nat),
      file.err = false → file.eof = false →
      ((file.data.drop file.pos).take r).length < fuel →
      dyn.length ≤ toobig →
      file2string_loop toobig fuel file true (r : Int) dyn =
        if dyn.length +
            (((file.data.drop file.pos).take r).filter (fun b => !ISCRLF b)).length ≤ toobig then
          some ⟨PARAM_OK,
            some (dyn ++ ((file.data.drop file.pos).take r).filter (fun b => !ISCRLF b))⟩
        else some ⟨PARAM_NO_MEM, none⟩ := by
  intro fuel
  induction fuel with
  | zero => intro file r dyn _ _ h; omega
  | succ fuel ih =>
    intro file r dyn herr heof hfuel hdyn
    have hl1 := List.length_take r (file.data.drop file.pos)
    rw [file2string_loop]
    by_cases hA : r ≤ 4096 ∧ r ≤ (file.data.drop file.pos).length
    · -- the last round delivers the rest of the range
      have helt : file2string_elt_cnt true (r : Int) = r := by
        rw [file2string_elt_cnt_range]; omega
      have hlen : ((file.data.drop file.pos).take r).length = r := by omega
      have hstrip := file2string_strip_total toobig
        (((file.data.drop file.pos).take r).length + 1)
        ((file.data.drop file.pos).take r) dyn (by omega) hdyn
      have hdone : ((r : Int) - (((file.data.drop file.pos).take r).length : Int) ≤ 0) := by
        omega
      rw [helt]
      simp only [fread, ferror, feof, herr, heof, Bool.false_or, Bool.false_eq_true,
        if_false, hstrip, Bool.true_and]
      by_cases hfit : dyn.length +
          (((file.data.drop file.pos).take r).filter (fun b => !ISCRLF b)).length ≤ toobig
      · simp only [hfit, if_true, hdone, decide_True]
      · simp only [hfit, if_false]
    · by_cases hB : (file.data.drop file.pos).length < min r 4096
      · -- the file ends inside the round
        have helt := file2string_elt_cnt_range r
        have hbuf : (file.data.drop file.pos).take (min r 4096) = file.data.drop file.pos :=
          List.take_of_length_le (by omega)
        have hsel : (file.data.drop file.pos).take r = file.data.drop file.pos :=
          List.take_of_length_le (by omega)
        have hstrip := file2string_strip_total toobig
          ((file.data.drop file.pos).length + 1) (file.data.drop file.pos) dyn (by omega) hdyn
        have hshort : decide ((file.data.drop file.pos).length < min r 4096) = true := by
          simpa using hB
        have hnot : ¬ ((r : Int) - ((file.data.drop file.pos).length : Int) ≤ 0) := by omega
        rw [helt]
        simp only [fread, ferror, feof, herr, heof, Bool.false_or, Bool.false_eq_true,
          if_false, hbuf, hsel, hstrip, Bool.true_and]
        by_cases hfit : dyn.length +
            ((file.data.drop file.pos).filter (fun b => !ISCRLF b)).length ≤ toobig
        · simp only [hfit, if_true, hnot, decide_False, hshort, Bool.not_true,
            Bool.false_eq_true, if_false]
        · simp only [hfit, if_false]
      · -- a full round of 4096 bytes, with more of the range to come
        have helt : file2string_elt_cnt true (r : Int) = 4096 := by
          rw [file2string_elt_cnt_range]; omega
        have hfull : ((file.data.drop file.pos).take 4096).length = 4096 := by
          rw [List.length_take]; omega
        have hr : 4096 < r := by omega
        have htake : (file.data.drop file.pos).take r =
            (file.data.drop file.pos).take 4096 ++
              ((file.data.drop file.pos).drop 4096).take (r - 4096) := by
          have e : r = 4096 + (r - 4096) := by omega
          conv_lhs => rw [e, List.take_add]
        have hlen := congrArg List.length htake
        rw [List.length_append, hfull] at hlen
        have hstrip := file2string_strip_total toobig
          (((file.data.drop file.pos).take 4096).length + 1)
          ((file.data.drop file.pos).take 4096) dyn (by omega) hdyn
        have hd : decide (((file.data.drop file.pos).take 4096).length < 4096) = false := by
          simp [hfull]
        have hcast : (r : Int) - ((4096 : Nat) : Int) = ((r - 4096 : Nat) : Int) := by omega
        have hnot : ¬ (((r - 4096 : Nat) : Int) ≤ 0) := by omega
        have hdrop : file.data.drop (file.pos + 4096) =
            (file.data.drop file.pos).drop 4096 := by
          rw [List.drop_drop, Nat.add_comm]
        have hfsel : ((file.data.drop file.pos).take r).filter (fun b => !ISCRLF b) =
            ((file.data.drop file.pos).take 4096).filter (fun b => !ISCRLF b) ++
              (((file.data.drop file.pos).drop 4096).take (r - 4096)).filter
                (fun b => !ISCRLF b) := by
          rw [htake, List.filter_append]
        rw [helt]
        simp only [fread, ferror, feof, herr, heof, Bool.false_or, Bool.false_eq_true,
          if_false, hstrip, Bool.true_and]
        by_cases hfit : dyn.length +
            (((file.data.drop file.pos).take 4096).filter (fun b => !ISCRLF b)).length ≤ toobig
        · simp only [hfit, if_true, hd, Bool.not_false]
          simp only [hfull]
          rw [hcast]
          simp only [hnot, decide_False, Bool.false_eq_true, if_false]
          refine (ih _ (r - 4096) _ rfl rfl ?_ ?_).trans ?_
          · show ((file.data.drop (file.pos + 4096)).take (r - 4096)).length < fuel
            rw [hdrop]
            omega
          · show (dyn ++ _).length ≤ toobig
            rw [List.length_append]
            exact hfit
          · show (if (dyn ++ _).length +
                (((file.data.drop (file.pos + 4096)).take (r - 4096)).filter _).length ≤ toobig
              then some (Loaded.mk PARAM_OK (some ((dyn ++ _) ++
                ((file.data.drop (file.pos + 4096)).take (r - 4096)).filter _)))
              else _) = _
            rw [hdrop, hfsel, List.append_assoc, List.length_append, List.length_append,
              Nat.add_assoc]
        · simp only [hfit, if_false]
          rw [if_neg]
          rw [hfsel, List.length_append]
          omega

/-- The seek `textmode_fseek(file, s, SEEK_SET)` to an offset inside the file, or
at its end, succeeds and leaves the stream at `s`. -/
theorem textmode_fseek_set_ok (file : FILE) (s : Nat) (hs : s ≤ file.data.length) :
    textmode_fseek file (s : Int) SEEK_SET = some (0, { file with pos := s, eof := false }) := by
  rw [textmode_fseek_eq file (s : Int) SEEK_SET (Or.inl rfl) (s : Int) (by simp)]
  by_cases h0 : s = 0
  · subst h0
    simp
  · have h1 : ¬ ((s : Int) ≤ 0) := by omega
    have h2 : (s : Int) ≤ (file.data.length : Int) := by omega
    simp [h1, h2]

/-! ## The claim on `file2string` with a range -/

/-- Claim C21, refuted as stated: with a capacity of 2 bytes, the range 0..4 of
a stream of 5 bytes that holds no CR, LF or NUL is not handed back:
`file2string` returns `PARAM_NO_MEM`. -/
theorem file2string_both_over_capacity :
    file2string 2 ⟨[65, 66, 67, 68, 69], 0, false, false⟩ (FILELIMIT_START ||| FILELIMIT_END) 0 4 =
      some ⟨PARAM_NO_MEM, none⟩ := by
  decide

/-- Claim C21, amended: on a stream of `N` bytes `B` read without text-mode
translation and without a read error, for `0 <= start <= end < N`, when the
bytes of `B[start .. end]` that are not CR, LF or NUL stay under the capacity,
`file2string` with `FILELIMIT_START | FILELIMIT_END` returns `PARAM_OK` and
hands back exactly those bytes: the range length counts raw source bytes, so
the output has at most `end - start + 1` bytes, and fewer whenever the span
holds a terminator byte. -/
theorem file2string_both_range (MAX_FILE2MEMORY : Nat) (file : FILE) (start end_ : Int)
    (herr : file.err = false) (h0 : 0 ≤ start) (hse : start ≤ end_)
    (hend : end_ < (file.data.length : Int))
    (hcap : (((file.data.drop start.toNat).take (end_ - start + 1).toNat).filter
      (fun b => !ISCRLF b)).length < MAX_FILE2MEMORY) :
    file2string MAX_FILE2MEMORY file (FILELIMIT_START ||| FILELIMIT_END) start end_ =
        some ⟨PARAM_OK, some (((file.data.drop start.toNat).take (end_ - start + 1).toNat).filter
          (fun b => !ISCRLF b))⟩ ∧
      (((file.data.drop start.toNat).take (end_ - start + 1).toNat).filter
        (fun b => !ISCRLF b)).length ≤ (end_ - start + 1).toNat ∧
      ((∃ b ∈ (file.data.drop start.toNat).take (end_ - start + 1).toNat, ISCRLF b = true) →
        (((file.data.drop start.toNat).take (end_ - start + 1).toNat).filter
          (fun b => !ISCRLF b)).length < (end_ - start + 1).toNat) := by
  obtain ⟨s, rfl⟩ : ∃ s : Nat, start = (s : Int) := ⟨start.toNat, by omega⟩
  obtain ⟨r, hr⟩ : ∃ r : Nat, end_ - (s : Int) + 1 = (r : Int) :=
    ⟨(end_ - (s : Int) + 1).toNat, by omega⟩
  rw [hr]
  simp only [Int.toNat_ofNat] at hcap ⊢
  rw [hr] at hcap
  simp only [Int.toNat_ofNat] at hcap
  have hlen : ((file.data.drop s).take r).length = r := by
    rw [List.length_take, List.length_drop]
    omega
  refine ⟨?_, ?_, ?_⟩
  · have h := file2string_loop_range MAX_FILE2MEMORY (file.data.length + 1)
      { file with pos := s, eof := false } r [] herr rfl
      (by show ((file.data.drop s).take r).length < _; rw [hlen]; omega) (Nat.zero_le _)
    rw [if_pos (by
      show ([] : List Nat).length + (((file.data.drop s).take r).filter _).length ≤ _
      rw [List.length_nil]; omega)] at h
    simp only [file2string, FILELIMIT_START, FILELIMIT_END]
    simp only [Nat.reduceEqDiff, if_false, if_true, Nat.reduceOr, ne_eq, not_true_eq_false]
    rw [textmode_fseek_set_ok file s (by omega)]
    simp only [ne_eq, not_true_eq_false, if_false, decide_True, if_true, hr]
    simpa using h
  · have := List.length_filter_le (fun b => !ISCRLF b) ((file.data.drop s).take r)
    omega
  · rintro ⟨b, hb, hcr⟩
    have hlt : (((file.data.drop s).take r).filter (fun b => !ISCRLF b)).length <
        ((file.data.drop s).take r).length :=
      List.length_filter_lt_length_iff_exists.mpr ⟨b, hb, by simp [hcr]⟩
    omega

/-- The range 1..4 of the bytes `A CR LF B NUL C`, which is `CR LF B NUL`, is
handed back as `B`: one byte for a range of four. -/
theorem file2string_both_range_witness :
    file2string 100 ⟨[65, 13, 10, 66, 0, 67], 0, false, false⟩
        (FILELIMIT_START ||| FILELIMIT_END) 1 4 =
        some ⟨PARAM_OK, some (((([65, 13, 10, 66, 0, 67] : List Nat).drop (1 : Int).toNat).take
          ((4 : Int) - 1 + 1).toNat).filter (fun b => !ISCRLF b))⟩ ∧
      ((([65, 13, 10, 66, 0, 67] : List Nat).drop (1 : Int).toNat).take
        ((4 : Int) - 1 + 1).toNat).filter (fun b => !ISCRLF b) = [66] :=
  ⟨(file2string_both_range 100 ⟨[65, 13, 10, 66, 0, 67], 0, false, false⟩ 1 4 rfl (by decide)
      (by decide) (by decide) (by decide)).1, by decide⟩

/-! ## The suffix without `-` and the first character of the filename -/

/-- Result of the call on the form `name!x`: no `-` is met, so the filename is
not truncated. -/
theorem extract_start_no_minus (name x : List Char) (st en : Int) (hn : name ≠ [])
    (hx0 : x ≠ []) (hx : ∀ c ∈ x, c.isDigit = true) (hxfit : decVal x ≤ CURL_OFF_T_MAX) :
    filename_extract_limits (name ++ '!' :: x) st en =
      ⟨FILELIMIT_START, (decVal x : Int), en, name ++ '!' :: x⟩ := by
  unfold filename_extract_limits
  have e1 : name ++ '!' :: x = (name ++ ['!']) ++ (x ++ []) := by simp
  have n1 : (name ++ '!' :: x).length - 1 = ((name ++ ['!']) ++ x).length - 1 := by simp
  rw [n1]
  conv_lhs => rw [e1]
  rw [loop_digits _ (by simp) x hx]
  have e2 : (name ++ ['!']) ++ (x ++ []) = name ++ '!' :: (x ++ []) := by simp
  have n2 : (name ++ ['!']).length - 1 = name.length := by simp
  rw [n2, e2, loop_bang_digits name x [] hn hx0 hx hxfit rfl]
  simp [FILELIMIT_START]

/-- The scan does not read the first character: on two filenames with the same
tail, the flags, `*start` and `*end` are the same, and so is the filename left
behind but for its first character. -/
theorem loop_first_char (c1 c2 : Char) (t : List Char) :
    ∀ (i : Nat) (hm : Bool) (fl : Nat) (st en : Int),
      ∃ (ret : Nat) (st1 en1 : Int) (f : List Char),
        filename_extract_limits_loop (c1 :: t) i hm fl st en = ⟨ret, st1, en1, c1 :: f⟩ ∧
        filename_extract_limits_loop (c2 :: t) i hm fl st en = ⟨ret, st1, en1, c2 :: f⟩ := by
  intro i
  induction i with
  | zero =>
    intro hm fl st en
    exact ⟨fl, st, en, t, rfl, rfl⟩
  | succ i ih =>
    intro hm fl st en
    simp only [filename_extract_limits_loop, List.getD_cons_succ, List.drop_succ_cons,
      List.take_succ_cons]
    split_ifs <;> first
      | exact ⟨_, _, _, _, rfl, rfl⟩
      | exact ih _ _ _ _

/-- Claim C22: on a filename `name!x`, with `name` non-empty and `x` a
non-empty digit string whose value fits in `curl_off_t` and no `-`, the call
returns `FILELIMIT_START` with the value of `x` in `*start`, leaves `*end` as it
was and leaves the filename, suffix included, as it was. -/
theorem filename_extract_limits_digits_only (name x : List Char) (st en : Int)
    (hn : name ≠ [])
    (hx0 : x ≠ []) (hx : ∀ c ∈ x, c.isDigit = true) (hxfit : decVal x ≤ CURL_OFF_T_MAX) :
    (filename_extract_limits (name ++ "!".toList ++ x) st en).ret = FILELIMIT_START ∧
      (filename_extract_limits (name ++ "!".toList ++ x) st en).start = (decVal x : Int) ∧
      (filename_extract_limits (name ++ "!".toList ++ x) st en).end_ = en ∧
      (filename_extract_limits (name ++ "!".toList ++ x) st en).filename
        = name ++ "!".toList ++ x := by
  have e : name ++ "!".toList ++ x = name ++ '!' :: x := by simp
  rw [e, extract_start_no_minus name x st en hn hx0 hx hxfit]
  exact ⟨rfl, rfl, rfl, rfl⟩

/-- The filename `f!10` gives `FILELIMIT_START` and start 10, and stays `f!10`. -/
theorem filename_extract_limits_digits_only_witness :
    (filename_extract_limits ("f".toList ++ "!".toList ++ "10".toList) 7 8).ret
        = FILELIMIT_START ∧
      (filename_extract_limits ("f".toList ++ "!".toList ++ "10".toList) 7 8).start
        = (decVal "10".toList : Int) ∧
      (filename_extract_limits ("f".toList ++ "!".toList ++ "10".toList) 7 8).end_ = 8 ∧
      (filename_extract_limits ("f".toList ++ "!".toList ++ "10".toList) 7 8).filename
        = "f".toList ++ "!".toList ++ "10".toList :=
  filename_extract_limits_digits_only "f".toList "10".toList 7 8 (by decide) (by decide)
    (by decide) (by decide)

/-- Claim C23: the call never examines the first character of the filename:
two filenames `c1 :: t` and `c2 :: t` give the same flags, the same `*start`
and `*end`, and filenames of the same length that agree after their first
character (the truncation position is the same). So `!10-20`, which begins with
the delimiter, is not taken as the BOTH form: the call returns `FILELIMIT_END`
alone with 20 in `*end`, `*start` untouched and the filename as it was. -/
theorem filename_extract_limits_first_char (c1 c2 : Char) (t : List Char) (st en : Int) :
    ((filename_extract_limits (c1 :: t) st en).ret
        = (filename_extract_limits (c2 :: t) st en).ret ∧
      (filename_extract_limits (c1 :: t) st en).start
        = (filename_extract_limits (c2 :: t) st en).start ∧
      (filename_extract_limits (c1 :: t) st en).end_
        = (filename_extract_limits (c2 :: t) st en).end_ ∧
      (filename_extract_limits (c1 :: t) st en).filename.length
        = (filename_extract_limits (c2 :: t) st en).filename.length ∧
      (filename_extract_limits (c1 :: t) st en).filename.tail
        = (filename_extract_limits (c2 :: t) st en).filename.tail ∧
      (filename_extract_limits (c1 :: t) st en).filename.head? = some c1 ∧
      (filename_extract_limits (c2 :: t) st en).filename.head? = some c2) ∧
    filename_extract_limits "!10-20".toList st en = ⟨FILELIMIT_END, st, 20, "!10-20".toList⟩ := by
  constructor
  · obtain ⟨ret, st1, en1, f, h1, h2⟩ := loop_first_char c1 c2 t t.length false 0 st en
    have e1 : filename_extract_limits (c1 :: t) st en = ⟨ret, st1, en1, c1 :: f⟩ := h1
    have e2 : filename_extract_limits (c2 :: t) st en = ⟨ret, st1, en1, c2 :: f⟩ := h2
    rw [e1, e2]
    exact ⟨rfl, rfl, rfl, rfl, rfl, rfl, rfl⟩
  · simp [filename_extract_limits, filename_extract_limits_loop, strchr, curlx_strtoofft,
      decVal, FILELIMIT_END, CURL_OFF_T_MAX]

/-! ## The walk of `textmode_fseek` on a stream in text mode -/

theorem drop_add_eq (l : List Nat) (m n : Nat) : l.drop (m + n) = (l.drop m).drop n := by
  rw [List.drop_drop, Nat.add_comm]

/-- Without translation the characters read are the bytes. -/
theorem TextStream.readable_false (l : List Nat) : TextStream.readable false l = l := by
  induction l with
  | nil => rfl
  | cons b rest ih =>
    cases rest with
    | nil => rfl
    | cons c rest1 =>
      simp only [TextStream.readable, Bool.false_and, Bool.false_eq_true, if_false]
      rw [ih]

/-- At the end of the file `fgetc` returns `EOF` and sets the indicator. -/
theorem TextStream.fgetc_none (translate : Bool) (stream : FILE)
    (h : stream.data.drop stream.pos = []) :
    TextStream.fgetc translate stream = (none, { stream with eof := true }) := by
  simp only [TextStream.fgetc, h]

/-- Before the end of the file `fgetc` delivers the first of the characters
left to read and moves over one or two bytes. -/
theorem TextStream.fgetc_some (translate : Bool) (stream : FILE) (b : Nat) (rest : List Nat)
    (h : stream.data.drop stream.pos = b :: rest) :
    ∃ (x d : Nat), TextStream.fgetc translate stream
        = (some x, { stream with pos := stream.pos + d }) ∧ 1 ≤ d ∧
      stream.pos + d ≤ stream.data.length ∧
      TextStream.readable translate (stream.data.drop stream.pos) =
        x :: TextStream.readable translate (stream.data.drop (stream.pos + d)) := by
  have hlen : (stream.data.drop stream.pos).length = (b :: rest).length := by rw [h]
  rw [List.length_drop, List.length_cons] at hlen
  have h1 : stream.data.drop (stream.pos + 1) = rest := by
    rw [drop_add_eq, h]
    rfl
  cases rest with
  | nil =>
    refine ⟨b, 1, ?_, Nat.le_refl 1, by omega, ?_⟩
    · simp only [TextStream.fgetc, h]
    · rw [h, h1]
      rfl
  | cons c rest1 =>
    have h2 : stream.data.drop (stream.pos + 2) = rest1 := by
      rw [drop_add_eq, h]
      rfl
    have hlen2 : (c :: rest1).length = rest1.length + 1 := List.length_cons c rest1
    rw [hlen2] at hlen
    by_cases htr : (translate && b == 13 && c == 10) = true
    · refine ⟨10, 2, ?_, by omega, by omega, ?_⟩
      · simp only [TextStream.fgetc, h, htr, if_true]
      · rw [h, h2]
        simp only [TextStream.readable, htr, if_true]
    · refine ⟨b, 1, ?_, Nat.le_refl 1, by omega, ?_⟩
      · simp only [TextStream.fgetc, h, htr, Bool.false_eq_true, if_false]
      · rw [h, h1]
        simp only [TextStream.readable, htr, Bool.false_eq_true, if_false]

/-- The byte that the next `fgetc` delivers is the first of the characters left
to read, and `EOF` when there is none. -/
theorem TextStream.fgetc_head (translate : Bool) (stream : FILE) :
    (TextStream.fgetc translate stream).1 =
      (TextStream.readable translate (stream.data.drop stream.pos)).head? := by
  cases h : stream.data.drop stream.pos with
  | nil =>
    rw [TextStream.fgetc_none translate stream h]
    rfl
  | cons b rest =>
    obtain ⟨x, d, hg, -, -, hr⟩ := TextStream.fgetc_some translate stream b rest h
    rw [h] at hr
    rw [hg, hr]
    rfl

/-- The loop stops at once when the target is not ahead of the counter. -/
theorem TextStream.loop_stop (translate : Bool) (fuel : Nat) (stream : FILE) (pos newpos : Int)
    (h : newpos ≤ pos) :
    TextStream.textmode_fseek_loop translate (fuel + 1) stream pos newpos = some (pos, stream) := by
  rw [TextStream.textmode_fseek_loop, if_neg (by omega)]

/-- The walk over `n` characters: the counter advances by `n`, or by the
number of characters left when there are fewer, and the characters left to
read afterwards are those left before without their first `n`. -/
theorem TextStream.loop_walk (translate : Bool) :
    ∀ (fuel : Nat) (stream : FILE) (cnt : Int) (n : Nat),
      stream.data.length - stream.pos < fuel →
      ∃ s : FILE,
        TextStream.textmode_fseek_loop translate fuel stream cnt (cnt + (n : Int)) =
          some (cnt + ((min n (TextStream.readable translate
            (stream.data.drop stream.pos)).length : Nat) : Int), s) ∧
        s.data = stream.data ∧
        TextStream.readable translate (s.data.drop s.pos) =
          (TextStream.readable translate (stream.data.drop stream.pos)).drop n ∧
        (n ≤ (TextStream.readable translate (stream.data.drop stream.pos)).length →
          s.eof = stream.eof) := by
  intro fuel
  induction fuel with
  | zero => intro stream cnt n h; omega
  | succ fuel ih =>
    intro stream cnt n hfuel
    cases n with
    | zero =>
      refine ⟨stream, ?_, rfl, rfl, fun _ => rfl⟩
      rw [TextStream.loop_stop translate fuel stream cnt _ (by simp)]
      simp
    | succ m =>
      have hlt : cnt < cnt + ((m + 1 : Nat) : Int) := by omega
      rw [TextStream.textmode_fseek_loop, if_pos hlt]
      cases hd : stream.data.drop stream.pos with
      | nil =>
        rw [TextStream.fgetc_none translate stream hd]
        refine ⟨{ stream with eof := true }, ?_, rfl, ?_, ?_⟩
        · simp [TextStream.readable]
        · show TextStream.readable translate (stream.data.drop stream.pos) = _
          rw [hd]
          simp [TextStream.readable]
        · intro h
          simp [TextStream.readable] at h
      | cons b rest =>
        obtain ⟨x, d, hg, hd1, hd2, hr⟩ := TextStream.fgetc_some translate stream b rest hd
        rw [hd] at hr
        rw [hg, hr]
        obtain ⟨s, hs1, hs2, hs3, hs4⟩ :=
          ih { stream with pos := stream.pos + d } (cnt + 1) m (by
            show stream.data.length - (stream.pos + d) < fuel
            omega)
        have hk : min (m + 1)
            (x :: TextStream.readable translate (stream.data.drop (stream.pos + d))).length =
            min m (TextStream.readable translate (stream.data.drop (stream.pos + d))).length
              + 1 := by
          rw [List.length_cons]
          omega
        have e1 : cnt + ((m + 1 : Nat) : Int) = cnt + 1 + (m : Int) := by omega
        refine ⟨s, ?_, hs2, ?_, ?_⟩
        · show TextStream.textmode_fseek_loop translate fuel _ (cnt + 1) _ = _
          rw [e1, hs1, hk]
          show some (cnt + 1 + ((min m (TextStream.readable translate
            (stream.data.drop (stream.pos + d))).length : Nat) : Int), s) = _
          congr 2
          push_cast
          omega
        · rw [hs3]
          rfl
        · intro h
          rw [List.length_cons] at h
          exact hs4 (by
            show m ≤ (TextStream.readable translate (stream.data.drop (stream.pos + d))).length
            omega)

/-- Without translation `fgetc` on a stream in text mode is the plain `fgetc`. -/
theorem text_fgetc_agrees (stream : FILE) :
    TextStream.fgetc false stream = fgetc stream := by
  unfold TextStream.fgetc fgetc
  cases stream.data.drop stream.pos with
  | nil => rfl
  | cons b rest =>
    cases rest with
    | nil => rfl
    | cons c rest1 => simp

theorem text_textmode_fseek_loop_agrees :
    ∀ (fuel : Nat) (stream : FILE) (pos newpos : Int),
      TextStream.textmode_fseek_loop false fuel stream pos newpos =
        textmode_fseek_loop fuel stream pos newpos := by
  intro fuel
  induction fuel with
  | zero => intro stream pos newpos; rfl
  | succ fuel ih =>
    intro stream pos newpos
    simp only [TextStream.textmode_fseek_loop, textmode_fseek_loop, text_fgetc_agrees]
    split_ifs
    · cases hg : fgetc stream with
      | mk c s1 =>
        cases c with
        | none => rfl
        | some x => exact ih s1 (pos + 1) newpos
    · rfl

/-- Without translation `textmode_fseek` on a stream in text mode is the
function used on the streams of `file2string`. -/
theorem text_textmode_fseek_agrees (stream : FILE) (offset : Int) (whence : Nat) :
    TextStream.textmode_fseek false stream offset whence = textmode_fseek stream offset whence := by
  simp only [TextStream.textmode_fseek, textmode_fseek, text_textmode_fseek_loop_agrees]

/-- The function `textmode_fseek` on a stream in text mode, after its seeks: the
walk from position 0 to the target `t`, which is the offset itself (`SEEK_SET`)
or the offset plus the physical size (`SEEK_END`). -/
theorem TextStream.textmode_fseek_start (translate : Bool) (stream : FILE) (offset : Int)
    (whence : Nat) (hw : whence = SEEK_SET ∨ whence = SEEK_END) (t : Int)
    (ht : t = if whence = SEEK_SET then offset else offset + (stream.data.length : Int)) :
    TextStream.textmode_fseek translate stream offset whence =
      match TextStream.textmode_fseek_loop translate (stream.data.length + 1)
        { stream with pos := 0, eof := false } 0 t with
      | none => none
      | some (pos, s) => some (if pos = t then 0 else -1, s) := by
  have e1 : FSEEK stream 0 SEEK_END =
      (0, { stream with pos := stream.data.length, eof := false }) := by
    simp [FSEEK, SEEK_SET, SEEK_END]
  have e2 : ∀ s : FILE, FSEEK s 0 SEEK_SET = (0, { s with pos := 0, eof := false }) := by
    intro s
    simp [FSEEK, SEEK_SET]
  rcases hw with rfl | rfl
  · simp only [if_true] at ht
    subst ht
    have hse : ¬ (SEEK_SET = SEEK_END) := by decide
    have hne : ¬ ((stream.pos : Int) = -1) := by omega
    simp only [TextStream.textmode_fseek, if_true, e2, ftell, ne_eq, not_true_eq_false, if_false,
      hne, hse]
  · have hse : ¬ (SEEK_END = SEEK_SET) := by decide
    rw [if_neg hse] at ht
    subst ht
    have hne : ¬ ((stream.data.length : Int) = -1) := by omega
    simp only [TextStream.textmode_fseek, if_true, e1, e2, ftell, ne_eq, not_true_eq_false,
      if_false, hne, hse]

/-! ## The claim on `textmode_fseek` -/

/-- Claim C18: on a stream in text mode whose bytes are read as `L` characters
(with or without the translation of CR LF into one character), `textmode_fseek`
with the target `t` (`offset` for `SEEK_SET`, `offset` plus the position of the
physical end for `SEEK_END`) returns `0` exactly when `0 <= t <= L` and `-1`
otherwise; on success exactly `t` characters have been consumed from position
0, with the end-of-file indicator clear, so that the next read delivers
character `t` (or `EOF` when `t = L`). Without translation this is the function
used on the streams of `file2string`, and the characters are the bytes. -/
theorem textmode_fseek_exact (translate : Bool) (stream : FILE) (offset : Int) (whence : Nat)
    (hw : whence = SEEK_SET ∨ whence = SEEK_END) :
    (∃ (r : Int) (s : FILE),
      TextStream.textmode_fseek translate stream offset whence = some (r, s) ∧
      s.data = stream.data ∧ (r = 0 ∨ r = -1) ∧
      (r = 0 ↔ 0 ≤ (if whence = SEEK_SET then offset else offset + (stream.data.length : Int)) ∧
        (if whence = SEEK_SET then offset else offset + (stream.data.length : Int))
          ≤ ((TextStream.readable translate stream.data).length : Int)) ∧
      (r = 0 →
        TextStream.readable translate (s.data.drop s.pos) =
          (TextStream.readable translate stream.data).drop
            (if whence = SEEK_SET then offset
              else offset + (stream.data.length : Int)).toNat ∧
        s.eof = false ∧
        (TextStream.fgetc translate s).1 =
          (TextStream.readable translate stream.data)[(if whence = SEEK_SET then offset
            else offset + (stream.data.length : Int)).toNat]?)) ∧
    TextStream.textmode_fseek false stream offset whence = textmode_fseek stream offset whence ∧
    TextStream.readable false stream.data = stream.data := by
  refine ⟨?_, text_textmode_fseek_agrees stream offset whence,
    TextStream.readable_false stream.data⟩
  generalize ht : (if whence = SEEK_SET then offset else offset + (stream.data.length : Int)) = t
  rw [TextStream.textmode_fseek_start translate stream offset whence hw t ht.symm]
  by_cases hneg : t < 0
  · rw [TextStream.loop_stop translate stream.data.length _ 0 t (by omega)]
    have hne : ¬ ((0 : Int) = t) := by omega
    refine ⟨-1, { stream with pos := 0, eof := false }, ?_, rfl, Or.inr rfl, ?_, ?_⟩
    · simp only [hne, if_false]
    · constructor
      · intro h; omega
      · intro h; omega
    · intro h; omega
  · obtain ⟨n, hn⟩ : ∃ n : Nat, t = 0 + (n : Int) := ⟨t.toNat, by omega⟩
    obtain ⟨s, hs1, hs2, hs3, hs4⟩ := TextStream.loop_walk translate (stream.data.length + 1)
      { stream with pos := 0, eof := false } 0 n (by
        show stream.data.length - 0 < stream.data.length + 1
        omega)
    have hd0 : ({ stream with pos := 0, eof := false } : FILE).data.drop
        ({ stream with pos := 0, eof := false } : FILE).pos = stream.data := rfl
    rw [hd0] at hs1 hs3 hs4
    have htn : t.toNat = n := by omega
    rw [hn, hs1]
    by_cases hle : n ≤ (TextStream.readable translate stream.data).length
    · have hmin : min n (TextStream.readable translate stream.data).length = n := by omega
      refine ⟨0, s, ?_, hs2, Or.inl rfl, ?_, ?_⟩
      · simp only [hmin, if_true]
      · constructor
        · intro _; omega
        · intro _; rfl
      · intro _
        have htn2 : (0 + (n : Int)).toNat = n := by omega
        refine ⟨?_, ?_, ?_⟩
        · rw [hs3, htn2]
        · rw [hs4 hle]
        · rw [TextStream.fgetc_head, hs3, htn2, List.head?_drop]
    · have hmin : min n (TextStream.readable translate stream.data).length =
          (TextStream.readable translate stream.data).length := by omega
      have hne : ¬ ((0 : Int) + (((TextStream.readable translate stream.data).length : Nat) : Int)
          = 0 + (n : Int)) := by omega
      refine ⟨-1, s, ?_, hs2, Or.inr rfl, ?_, ?_⟩
      · simp only [hmin, hne, if_false]
      · constructor
        · intro h; omega
        · intro h; omega
      · intro h; omega

/-- On the bytes `A CR LF B`, read as the 3 characters `A LF B`, the physical
end is 4: the seek to one before the end has the target 3 and succeeds with
all 3 characters consumed, and the seek to the end itself has the target 4 and
fails. -/
theorem textmode_fseek_exact_witness :
    (∃ (r : Int) (s : FILE),
      TextStream.textmode_fseek true ⟨[65, 13, 10, 66], 0, false, false⟩ (-1) SEEK_END
        = some (r, s) ∧
      s.data = [65, 13, 10, 66] ∧ (r = 0 ∨ r = -1) ∧
      (r = 0 ↔ 0 ≤ (if SEEK_END = SEEK_SET then (-1 : Int)
          else -1 + (([65, 13, 10, 66] : List Nat).length : Int)) ∧
        (if SEEK_END = SEEK_SET then (-1 : Int)
          else -1 + (([65, 13, 10, 66] : List Nat).length : Int))
          ≤ ((TextStream.readable true [65, 13, 10, 66]).length : Int)) ∧
      (r = 0 →
        TextStream.readable true (s.data.drop s.pos) =
          (TextStream.readable true [65, 13, 10, 66]).drop
            (if SEEK_END = SEEK_SET then (-1 : Int)
              else -1 + (([65, 13, 10, 66] : List Nat).length : Int)).toNat ∧
        s.eof = false ∧
        (TextStream.fgetc true s).1 =
          (TextStream.readable true [65, 13, 10, 66])[(if SEEK_END = SEEK_SET then (-1 : Int)
            else -1 + (([65, 13, 10, 66] : List Nat).length : Int)).toNat]?)) ∧
    TextStream.readable true [65, 13, 10, 66] = [65, 10, 66] ∧
    TextStream.textmode_fseek true ⟨[65, 13, 10, 66], 0, false, false⟩ (-1) SEEK_END =
      some (0, ⟨[65, 13, 10, 66], 4, false, false⟩) ∧
    TextStream.textmode_fseek true ⟨[65, 13, 10, 66], 0, false, false⟩ 0 SEEK_END =
      some (-1, ⟨[65, 13, 10, 66], 4, true, false⟩) :=
  ⟨(textmode_fseek_exact true ⟨[65, 13, 10, 66], 0, false, false⟩ (-1) SEEK_END
      (Or.inr rfl)).1,
    by decide, by decide, by decide⟩

end ToolParamhlp
